import Mathlib

set_option maxRecDepth 40000

/-!
Shallow embedding of the single-domain web crawler of src/src/main.rs.

Rust strings are modelled as `List Char` (Unicode scalar values, with their
UTF-8 byte sizes made explicit) wherever byte offsets matter, and as `String`
elsewhere.  Timestamps, the network and the HTML DOM are abstracted: the
fetcher and the URL filter are parameters of the crawl orchestrator, and
heading extraction takes the page's heading elements (with the attributes the
selectors inspect) in document order.
-/

/-! ### Byte-level string utilities (Rust `str` primitives) -/

/-- Byte length of a character in UTF-8, as Rust's `char::len_utf8`. -/
def utf8Size (c : Char) : Nat :=
  if c.toNat < 0x80 then 1 else if c.toNat < 0x800 then 2
  else if c.toNat < 0x10000 then 3 else 4

/-- Total UTF-8 byte length of a character list (Rust `str::len`). -/
def byteLen (s : List Char) : Nat := (s.map utf8Size).sum

/-- Rust `str::is_char_boundary` at a byte offset. -/
def isCharBoundary : List Char → Nat → Bool
  | _, 0 => true
  | [], _ + 1 => false
  | c :: rest, p + 1 =>
    if p + 1 < utf8Size c then false else isCharBoundary rest (p + 1 - utf8Size c)

/-- Drop the first `p` bytes of a string (total function; the crawler only
uses it at char boundaries). -/
def byteDrop : List Char → Nat → List Char
  | s, 0 => s
  | [], _ + 1 => []
  | c :: rest, p + 1 =>
    if p + 1 < utf8Size c then rest else byteDrop rest (p + 1 - utf8Size c)

/-- Take the first `p` bytes of a string (total function; the crawler only
uses it at char boundaries). -/
def byteTake : List Char → Nat → List Char
  | _, 0 => []
  | [], _ + 1 => []
  | c :: rest, p + 1 =>
    if utf8Size c ≤ p + 1 then c :: byteTake rest (p + 1 - utf8Size c) else []

/-- The byte slice `s[a..b]` of Rust. -/
def byteSlice (s : List Char) (a b : Nat) : List Char := byteTake (byteDrop s a) (b - a)

/-- Unicode `White_Space`, as Rust's `char::is_whitespace`. -/
def isRustWS (c : Char) : Bool :=
  decide ((9 ≤ c.toNat ∧ c.toNat ≤ 13) ∨ c.toNat = 32 ∨ c.toNat = 0x85 ∨ c.toNat = 0xA0 ∨
    c.toNat = 0x1680 ∨ (0x2000 ≤ c.toNat ∧ c.toNat ≤ 0x200A) ∨ c.toNat = 0x2028 ∨
    c.toNat = 0x2029 ∨ c.toNat = 0x202F ∨ c.toNat = 0x205F ∨ c.toNat = 0x3000)

/-- Rust `str::trim`: remove leading and trailing whitespace. -/
def trimChars (l : List Char) : List Char :=
  ((l.dropWhile isRustWS).reverse.dropWhile isRustWS).reverse

/-- Rust `str::trim` on `String`. -/
def rustTrim (s : String) : String := String.mk (trimChars s.data)

/-- ASCII lowercase conversion of one character (approximation of Rust
`char::to_lowercase`, which the crawler only applies to ASCII data). -/
def asciiLower (c : Char) : Char :=
  if 'A' ≤ c ∧ c ≤ 'Z' then Char.ofNat (c.toNat + 32) else c

/-- Rust `str::to_lowercase` (ASCII approximation). -/
def lowerStr (s : String) : String := String.mk (s.data.map asciiLower)

/-- Does `l` start with `p`? (Rust `str::starts_with`.) -/
def startsWithL : List Char → List Char → Bool
  | _, [] => true
  | [], _ :: _ => false
  | c :: cs, d :: ds => c = d && startsWithL cs ds

/-- Does `l` end with `p`? (Rust `str::ends_with`.) -/
def endsWithL (l p : List Char) : Bool := startsWithL l.reverse p.reverse

/-- Does `l` contain `p` as a contiguous segment? (Rust `str::contains`.) -/
def containsL : List Char → List Char → Bool
  | [], p => startsWithL [] p
  | c :: t, p => startsWithL (c :: t) p || containsL t p

/-- Word counter state machine; counts maximal runs of non-whitespace, as
Rust `str::split_whitespace().count()`. -/
def countWordsAux : List Char → Bool → Nat
  | [], _ => 0
  | c :: rest, inWord =>
    if isRustWS c then countWordsAux rest false
    else (if inWord then 0 else 1) + countWordsAux rest true

/-- Rust `str::split_whitespace().count()`. -/
def countWords (l : List Char) : Nat := countWordsAux l false

/-- Byte index of the last occurrence of the pattern `". "` (Rust
`str::rfind(". ")`). -/
def rfindDotSpace : List Char → Option Nat
  | [] => none
  | [_] => none
  | c1 :: c2 :: rest =>
    match rfindDotSpace (c2 :: rest) with
    | some p => some (utf8Size c1 + p)
    | none => if c1 = '.' ∧ c2 = ' ' then some 0 else none

/-! ### Chunker (`Crawler::create_chunks`, src/src/main.rs lines 482-576) -/

/-- One produced text chunk (struct `TextChunk`; the fetch-independent
fields). -/
structure TextChunk where
  chunk_id : String
  text : List Char
  char_start : Nat
  char_end : Nat
  section_heading : Option String
deriving DecidableEq

def CHUNK_SIZE : Nat := 1000

def OVERLAP : Nat := 200

/-- Counter-indexed version of the boundary-advancing loop; the counter
`byteLen s - p` used below is exactly the number of steps the loop can take,
so the two agree with the Rust loop. -/
def advanceToBoundaryAux : Nat → List Char → Nat → Nat
  | 0, _, p => p
  | n + 1, s, p =>
    if p < byteLen s ∧ isCharBoundary s p = false then advanceToBoundaryAux n s (p + 1) else p

/-- The `while current < len && !is_char_boundary(current) { current += 1 }`
loops of `create_chunks` (lines 496-498, 506-508, 527-529). -/
def advanceToBoundary (s : List Char) (p : Nat) : Nat :=
  advanceToBoundaryAux (byteLen s - p) s p

/-- Target end of the chunk starting at boundary `cur` (lines 504-517):
`current + CHUNK_SIZE` clipped to the text length, advanced to a char
boundary, with the one-more-char fallback of lines 510-516. -/
def chunkTarget (ft : List Char) (cur : Nat) : Nat :=
  let te0 := min (cur + CHUNK_SIZE) (byteLen ft)
  let te1 := advanceToBoundary ft te0
  let te2 :=
    if te1 ≤ cur then
      match (byteDrop ft cur).head? with
      | some c => cur + utf8Size c
      | none => te1
    else te1
  min te2 (byteLen ft)

/-- Sentence-boundary snapping (lines 523-542): search the window
`[cur, min(te+100,len))` for the last `". "` and snap the end there when the
snapped position is usable. -/
def sentenceSnapEnd (ft : List Char) (cur te : Nat) : Nat :=
  if te < byteLen ft then
    let lim := advanceToBoundary ft (min (te + 100) (byteLen ft))
    if cur < lim then
      match rfindDotSpace (byteSlice ft cur lim) with
      | some pos =>
        if cur < cur + pos + 2 ∧ cur + pos + 2 ≤ lim ∧ isCharBoundary ft (cur + pos + 2) = true
        then cur + pos + 2 else te
      | none => te
    else te
  else te

/-- The final slice end of the chunk starting at `cur` (lines 523-549). -/
def chunkEnd (ft : List Char) (cur : Nat) : Nat :=
  let te := chunkTarget ft cur
  let ce1 := sentenceSnapEnd ft cur te
  if ce1 ≤ cur then te else ce1

/-- One iteration of the `loop` of `create_chunks` (lines 495-574), starting
from raw cursor `cur0` and chunk index `idx`.  Returns the chunks this
iteration emits and `some (cursor, index)` to continue with, or `none` when
the loop breaks. -/
def chunkStep (ft : List Char) (url : String) (cur0 idx : Nat) :
    List TextChunk × Option (Nat × Nat) :=
  let len := byteLen ft
  let cur := advanceToBoundary ft cur0
  if len ≤ cur then ([], none)
  else
    let te := chunkTarget ft cur
    if te ≤ cur then ([], none)
    else
      let ce := chunkEnd ft cur
      let trimmed := trimChars (byteSlice ft cur ce)
      let emitted : List TextChunk :=
        if trimmed = [] then []
        else [⟨url ++ "#chunk" ++ toString idx, trimmed, cur, ce, none⟩]
      let idx' := if trimmed = [] then idx else idx + 1
      let cand := ce - OVERLAP
      if cand ≤ cur ∧ cur < ce then (emitted, some (ce, idx'))
      else if cur < cand then (emitted, some (cand, idx'))
      else (emitted, none)

/-- Fuel-indexed iteration of the chunking loop.  The cursor strictly
increases at every continued iteration, so `byteLen ft + 1` fuel always
suffices (proved below). -/
def chunkLoopF : Nat → List Char → String → Nat → Nat → List TextChunk
  | 0, _, _, _, _ => []
  | fuel + 1, ft, url, cur0, idx =>
    match chunkStep ft url cur0 idx with
    | (emitted, none) => emitted
    | (emitted, some (cur', idx')) => emitted ++ chunkLoopF fuel ft url cur' idx'

/-- `Crawler::create_chunks` (lines 482-576); the `_headings` parameter of the
Rust function is unused and omitted. -/
def create_chunks (full_text : List Char) (url : String) : List TextChunk :=
  if full_text = [] then [] else chunkLoopF (byteLen full_text + 1) full_text url 0 0

/-! ### Link canonicalizer (`Crawler::filter_url`, lines 578-624)

The `url` crate is modelled by a structured URL value with plain-text
components.  Percent-encoding/decoding, `+`-decoding in queries, dot-segment
removal and scheme/host case normalization of the `url` crate are not
modelled; the crawler's claims do not exercise them. -/

/-- A parsed absolute URL (the projection of `url::Url` the crawler uses). -/
structure RUrl where
  scheme : String
  host : String
  path : String
  query : Option String
  fragment : Option String
deriving DecidableEq

/-- `url::Url::to_string`. -/
def urlToString (u : RUrl) : String :=
  u.scheme ++ "://" ++ u.host ++ u.path ++
    (match u.query with
     | some q => "?" ++ q
     | none => "") ++
    (match u.fragment with
     | some f => "#" ++ f
     | none => "")

/-- Characters ending the authority component. -/
def isUrlDelim (c : Char) : Bool := c == '/' || c == '?' || c == '#'

/-- Characters ending the path component. -/
def isQDelim (c : Char) : Bool := c == '?' || c == '#'

/-- Parse `scheme "://" authority path ["?" query] ["#" fragment]`; an empty
path is normalized to `"/"` as the `url` crate does for special schemes. -/
def parseUrlCore (cs : List Char) (scheme : String) : Option RUrl :=
  let auth := cs.takeWhile (fun c => !isUrlDelim c)
  let rest := cs.dropWhile (fun c => !isUrlDelim c)
  if auth = [] then none
  else
    let pathCs := rest.takeWhile (fun c => !isQDelim c)
    let rest2 := rest.dropWhile (fun c => !isQDelim c)
    let qf : Option (List Char) × Option (List Char) :=
      match rest2 with
      | c :: r =>
        if c = '?' then
          (some (r.takeWhile (fun c => c != '#')),
           match r.dropWhile (fun c => c != '#') with
           | _ :: fr => some fr
           | [] => none)
        else if c = '#' then (none, some r)
        else (none, none)
      | [] => (none, none)
    some { scheme := scheme, host := String.mk auth,
           path := if pathCs = [] then "/" else String.mk pathCs,
           query := qf.1.map String.mk, fragment := qf.2.map String.mk }

/-- `url::Url::parse`, restricted to the crawler's `http`/`https` URLs. -/
def parseUrl (s : String) : Option RUrl :=
  if startsWithL s.data "https://".data then parseUrlCore (s.data.drop 8) "https"
  else if startsWithL s.data "http://".data then parseUrlCore (s.data.drop 7) "http"
  else none

/-- The base path up to and including its last `'/'` (RFC 3986 merge). -/
def dirPath (p : String) : String :=
  String.mk ((p.data.reverse.dropWhile (fun c => c != '/')).reverse)

/-- `url::Url::join`: resolve `href` against `base` (absolute, protocol
relative, absolute path, query-only, fragment-only and relative-path
references; dot segments are not normalized). -/
def joinUrl (base : RUrl) (href : String) : Option RUrl :=
  match parseUrl href with
  | some u => some u
  | none =>
    let cs := href.data
    if startsWithL cs ['/', '/'] then parseUrl (base.scheme ++ ":" ++ href)
    else
      let beforeFrag := cs.takeWhile (fun c => c != '#')
      let fr : Option String :=
        match cs.dropWhile (fun c => c != '#') with
        | _ :: f => some (String.mk f)
        | [] => none
      let beforeQ := beforeFrag.takeWhile (fun c => c != '?')
      let q : Option String :=
        match beforeFrag.dropWhile (fun c => c != '?') with
        | _ :: qc => some (String.mk qc)
        | [] => none
      if beforeQ = [] then
        match q with
        | some _ => some { base with query := q, fragment := fr }
        | none => some { base with fragment := fr }
      else if startsWithL beforeQ ['/'] then
        some { base with path := String.mk beforeQ, query := q, fragment := fr }
      else
        some { base with path := dirPath base.path ++ String.mk beforeQ, query := q,
                         fragment := fr }

/-- Split a query string on `'&'` (the segments of `form_urlencoded`). -/
def splitOnAmp : List Char → List (List Char)
  | [] => [[]]
  | c :: rest =>
    if c = '&' then [] :: splitOnAmp rest
    else
      match splitOnAmp rest with
      | h :: t => (c :: h) :: t
      | [] => [[c]]

/-- One `key=value` segment as a pair (value empty when no `'='` occurs). -/
def pairOfSeg (seg : List Char) : List Char × List Char :=
  (seg.takeWhile (fun c => c != '='),
   match seg.dropWhile (fun c => c != '=') with
   | _ :: v => v
   | [] => [])

/-- `Url::query_pairs` on a raw query string: nonempty `'&'`-separated
segments, each split at its first `'='`. -/
def queryPairsC (l : List Char) : List (List Char × List Char) :=
  ((splitOnAmp l).filter (fun seg => !seg.isEmpty)).map pairOfSeg

/-- `Url::query_pairs` of an optional query. -/
def queryPairsOf : Option String → List (List Char × List Char)
  | none => []
  | some q => queryPairsC q.data

/-- Reassembling the kept pairs: `format!("{}={}", k, v)` joined with `"&"`
(lines 611-614). -/
def joinPairsC : List (List Char × List Char) → List Char
  | [] => []
  | [kv] => kv.1 ++ '=' :: kv.2
  | kv :: rest => kv.1 ++ '=' :: kv.2 ++ '&' :: joinPairsC rest

/-- The query-parameter filter of line 605. -/
def keepsParam (kv : List Char × List Char) : Bool :=
  !startsWithL kv.1 "utm_".data && !(kv.1 == "fbclid".data) && !(kv.1 == "gclid".data)

/-- The banned extension list of line 580. -/
def bannedExtensions : List String :=
  [".pdf", ".jpg", ".jpeg", ".png", ".gif", ".zip", ".doc", ".docx", ".xls", ".xlsx",
   ".ppt", ".pptx", ".mp3", ".mp4", ".avi", ".mov", ".xml", ".css", ".js", ".svg",
   ".webp", ".woff", ".woff2", ".ttf", ".eot", ".ics"]

/-- The banned leading patterns of line 585. -/
def bannedStarts : List String := ["#", "mailto:", "tel:", "javascript:", "data:"]

/-- Does the lowercased href match the banned-extension rule of line 581? -/
def hitsBannedExt (lower : String) : Bool :=
  bannedExtensions.any (fun ext =>
    endsWithL lower.data ext.data || containsL lower.data (ext ++ "?").data)

/-- The success path of `filter_url` (lines 603-616): strip the fragment,
drop the tracking query parameters, and rebuild the query (or clear it when
nothing is left). -/
def filterFinal (full : RUrl) : RUrl :=
  let noFrag : RUrl := { full with fragment := none }
  let query_pairs := (queryPairsOf noFrag.query).filter keepsParam
  if query_pairs = [] then { noFrag with query := none }
  else { noFrag with query := some (String.mk (joinPairsC query_pairs)) }

/-- `Crawler::filter_url` (lines 578-624): canonicalize `href` against
`base_url_str` for frontier expansion within `domain`. -/
def filter_url (domain : String) (base_url_str : String) (href : String) : Option String :=
  let lower_href := lowerStr href
  if hitsBannedExt lower_href then none
  else if bannedStarts.any (fun b => startsWithL lower_href.data b.data) then none
  else if href = "/cookies" ∨ href = "/cookie-policy" then none
  else
    match parseUrl base_url_str with
    | none => none
    | some base =>
      match joinUrl base href with
      | none => none
      | some full =>
        if full.host = domain then some (urlToString (filterFinal full))
        else none

/-- The well-formedness the crawler's URL values satisfy: an http(s) scheme,
a nonempty delimiter-free host, a nonempty path starting with `'/'` and free
of `'?'`/`'#'`, and a `'#'`-free query.  `parseUrl` only produces such
values, and `joinUrl` preserves them (proved below); for such values with no
fragment, `parseUrl (urlToString u) = some u`. -/
def WfUrl (u : RUrl) : Prop :=
  (u.scheme = "http" ∨ u.scheme = "https") ∧
  u.host.data ≠ [] ∧ (∀ c ∈ u.host.data, isUrlDelim c = false) ∧
  u.path.data ≠ [] ∧ u.path.data.head? = some '/' ∧
  (∀ c ∈ u.path.data, isQDelim c = false) ∧
  (∀ q, u.query = some q → '#' ∉ q.data)

/-! ### Heading extraction (`Crawler::extract_headings`, lines 322-387)

The DOM is abstracted to the page's `h1`..`h6` elements in document order;
each carries the collected descendant text, the result of the
`is_skippable` boilerplate test, and the total byte length of its
anchor-descendant text (the data the selectors compute). -/

/-- Output heading (struct `Heading`). -/
structure Heading where
  level : Nat
  text : String
  parent_heading : Option String
deriving DecidableEq

/-- One `h1`..`h6` element of the page, in document order. -/
structure HeadingElem where
  level : Nat
  text : String
  skippable : Bool
  linkTextLen : Nat
deriving DecidableEq

/-- The boilerplate heading phrase list of line 326. -/
def commonBoilerplateHeadings : List String :=
  ["navigation", "menu", "footer", "cookies", "search results", "search"]

/-- The body of the inner `for element in ...` loop of lines 347-383.  State:
`(last_h1, last_h2, collected headings)`. -/
def stepHeading (level : Nat) (st : Option String × Option String × List Heading)
    (e : HeadingElem) : Option String × Option String × List Heading :=
  if e.skippable then st
  else
    let text := rustTrim e.text
    let lower := lowerStr text
    if text = "" ∨ commonBoilerplateHeadings.any (fun s => containsL lower.data s.data) then st
    else if text ≠ "" ∧ byteLen text.data / 2 < e.linkTextLen ∧ countWords text.data < 5 then st
    else
      let parent : Option String :=
        if level = 2 then st.1
        else if 3 ≤ level ∧ level ≤ 6 then st.2.1
        else none
      let acc := st.2.2 ++ [⟨level, text, parent⟩]
      if level = 1 then (some text, st.2.1, acc)
      else if level = 2 then (st.1, some text, acc)
      else (st.1, st.2.1, acc)

/-- One pass of the outer `for level in 1..=6` loop: the elements matching
`h{level}` in document order, folded through `stepHeading`. -/
def processLevel (elems : List HeadingElem) (level : Nat)
    (st : Option String × Option String × List Heading) :
    Option String × Option String × List Heading :=
  (elems.filter (fun e => e.level == level)).foldl (stepHeading level) st

/-- `Crawler::extract_headings` (lines 322-387). -/
def extract_headings (elems : List HeadingElem) : List Heading :=
  ([1, 2, 3, 4, 5, 6].foldl (fun st lvl => processLevel elems lvl st) (none, none, [])).2.2

/-- Does the element survive all three `continue` filters of the loop? -/
def keptHeading (e : HeadingElem) : Prop :=
  e.skippable = false ∧
  ¬(rustTrim e.text = "" ∨
    commonBoilerplateHeadings.any
      (fun s => containsL (lowerStr (rustTrim e.text)).data s.data)) ∧
  ¬(rustTrim e.text ≠ "" ∧ byteLen (rustTrim e.text).data / 2 < e.linkTextLen ∧
    countWords (rustTrim e.text).data < 5)

instance (e : HeadingElem) : Decidable (keptHeading e) := by
  unfold keptHeading; infer_instance

/-- Trimmed text of the last kept heading of the given level on the page. -/
def lastKept (elems : List HeadingElem) (lvl : Nat) : Option String :=
  ((elems.filter (fun e => e.level == lvl && decide (keptHeading e))).getLast?).map
    (fun e => rustTrim e.text)

/-- What the specification calls the parent: the trimmed text of the nearest
kept heading of level `lvl` preceding position `i` in document order. -/
def nearestPrecedingKept (elems : List HeadingElem) (i : Nat) (lvl : Nat) : Option String :=
  (((elems.take i).filter (fun e => e.level == lvl && decide (keptHeading e))).getLast?).map
    (fun e => rustTrim e.text)

/-! ### Crawl orchestrator (`Crawler::crawl`, lines 149-193)

`scrape_page` (network + DOM) is abstracted as a fetcher
`String → Except String PageData`, and `filter_url`'s role is a parameter
`String → String → Option String` (base url, href ↦ canonical url).  The
state also carries `fetchLog`, pure instrumentation recording each URL the
orchestrator fetches, in order.  Timestamps are not modelled. -/

inductive LinkType where
  | Internal
  | External
  | Anchor
deriving DecidableEq

structure LinkData where
  text : String
  href : String
  link_type : LinkType
deriving DecidableEq

structure PageMetadata where
  depth : Nat
  word_count : Nat
  language : Option String
  description : Option String
deriving DecidableEq

structure PageContent where
  full_text : String
  headings : List Heading
  paragraphs : List String
  lists : List String
  chunks : List TextChunk
deriving DecidableEq

structure PageData where
  url : String
  title : String
  content : PageContent
  metadata : PageMetadata
  links : List LinkData
deriving DecidableEq

structure CrawlState where
  visited : List String
  pages : List PageData
  fetchLog : List String
deriving DecidableEq

/-- The placeholder record of lines 180-190 built when scraping fails. -/
def failedPage (url : String) (depth : Nat) (e : String) : PageData :=
  { url := url, title := "Failed to crawl",
    content := { full_text := "", headings := [], paragraphs := [], lists := [], chunks := [] },
    metadata := { depth := depth, word_count := 0, language := none,
                  description := some ("Error: " ++ e) },
    links := [] }

/-- The content test of lines 159-161 deciding whether a scraped page is
kept. -/
def goodPage (p : PageData) : Prop :=
  rustTrim p.content.full_text ≠ "" ∨ p.content.paragraphs ≠ [] ∨ p.content.headings ≠ []

instance (p : PageData) : Decidable (goodPage p) := by
  unfold goodPage; infer_instance

/-- `Crawler::crawl` (lines 149-193), indexed by fuel.  Fuel `max_depth -
depth` always suffices (proved below), so the fuel-free Rust recursion is
total and the fuel view is faithful. -/
def crawlF (f : String → Except String PageData) (g : String → String → Option String)
    (md : Nat) : Nat → String → Nat → CrawlState → CrawlState
  | 0, _, _, s => s
  | fuel + 1, url, depth, s =>
    if md ≤ depth ∨ url ∈ s.visited then s
    else
      let s1 : CrawlState :=
        { visited := url :: s.visited, pages := s.pages, fetchLog := s.fetchLog ++ [url] }
      match f url with
      | Except.ok page =>
        if goodPage page then
          page.links.foldl
            (fun st l =>
              if l.link_type = LinkType.Internal then
                match g url l.href with
                | some fu => if fu ∈ st.visited then st else crawlF f g md fuel fu (depth + 1) st
                | none => st
              else st)
            { visited := s1.visited, pages := s1.pages ++ [page], fetchLog := s1.fetchLog }
        else s1
      | Except.error e =>
        { visited := s1.visited, pages := s1.pages ++ [failedPage url depth e],
          fetchLog := s1.fetchLog }

/-- The `for link in links` loop of lines 165-173, as a standalone function
(definitionally the fold inside `crawlF`). -/
def crawlLinksF (f : String → Except String PageData) (g : String → String → Option String)
    (md fuel : Nat) (base : String) (depth : Nat) (links : List LinkData)
    (s : CrawlState) : CrawlState :=
  links.foldl
    (fun st l =>
      if l.link_type = LinkType.Internal then
        match g base l.href with
        | some fu => if fu ∈ st.visited then st else crawlF f g md fuel fu depth st
        | none => st
      else st)
    s

/-! ### Concrete inputs used to settle the claims -/

/-- A fetcher that always fails with message `"boom"`. -/
def exFetchFail : String → Except String PageData := fun _ => Except.error "boom"

/-- A concrete page with some content and one internal link. -/
def exPageOk : PageData :=
  { url := "https://d.org/", title := "T",
    content := { full_text := "hello", headings := [], paragraphs := [], lists := [],
                 chunks := [] },
    metadata := { depth := 0, word_count := 1, language := some "en", description := none },
    links := [⟨"more", "/b", LinkType.Internal⟩] }

/-- A fetcher that always returns `exPageOk`. -/
def exFetchOk : String → Except String PageData := fun _ => Except.ok exPageOk

/-- A URL filter resolving every href against the `d.org` root. -/
def exFilter : String → String → Option String := fun _ h => some ("https://d.org" ++ h)

/-- The crawl state at the start of a run. -/
def emptyState : CrawlState := { visited := [], pages := [], fetchLog := [] }

/-- A page with two `h1` elements and an `h2` between them, in document
order. -/
def exHeads : List HeadingElem :=
  [⟨1, "A", false, 0⟩, ⟨2, "X", false, 0⟩, ⟨1, "B", false, 0⟩]

/-- The Open Days scenario: one `h1` followed by one `h2`. -/
def exOpenDays : List HeadingElem :=
  [⟨1, "Open Days", false, 0⟩, ⟨2, "Visit us", false, 0⟩]

/-- 500 ASCII characters: shorter than the chunk size. -/
def exC3text : List Char := List.replicate 500 'a'

/-- 2200 ASCII characters, no sentence terminator anywhere. -/
def exC4text : List Char := List.replicate 2200 'a'

/-- 1200 characters whose tail from byte 300 on is whitespace. -/
def exC5text : List Char := List.replicate 300 'a' ++ List.replicate 900 ' '

/-! ### Utility lemmas -/

lemma utf8Size_pos (c : Char) : 1 ≤ utf8Size c := by
  unfold utf8Size
  repeat' split
  all_goals norm_num

lemma byteLen_nil : byteLen [] = 0 := rfl

lemma byteLen_cons (c : Char) (l : List Char) :
    byteLen (c :: l) = utf8Size c + byteLen l := by
  simp [byteLen]

lemma byteLen_append (a b : List Char) : byteLen (a ++ b) = byteLen a + byteLen b := by
  simp [byteLen]

lemma byteLen_pos (l : List Char) (h : l ≠ []) : 0 < byteLen l := by
  cases l with
  | nil => exact absurd rfl h
  | cons c t => rw [byteLen_cons]; have := utf8Size_pos c; omega

lemma isCharBoundary_zero (s : List Char) : isCharBoundary s 0 = true := by
  cases s <;> rfl

lemma isCharBoundary_byteLen (s : List Char) : isCharBoundary s (byteLen s) = true := by
  induction s with
  | nil => rfl
  | cons c t ih =>
    have h1 := utf8Size_pos c
    rw [byteLen_cons]
    obtain ⟨m, hm⟩ : ∃ m, utf8Size c + byteLen t = m + 1 := ⟨utf8Size c + byteLen t - 1, by omega⟩
    rw [hm]
    simp only [isCharBoundary]
    rw [if_neg (by omega)]
    have h2 : m + 1 - utf8Size c = byteLen t := by omega
    rw [h2]; exact ih

lemma advanceToBoundaryAux_ge (n : Nat) : ∀ (s : List Char) (p : Nat),
    p ≤ advanceToBoundaryAux n s p := by
  induction n with
  | zero => intro s p; simp [advanceToBoundaryAux]
  | succ n ih =>
    intro s p
    simp only [advanceToBoundaryAux]
    split
    · exact le_trans (Nat.le_succ p) (ih s (p + 1))
    · exact le_refl p

lemma advanceToBoundaryAux_le (n : Nat) : ∀ (s : List Char) (p : Nat),
    p ≤ byteLen s → advanceToBoundaryAux n s p ≤ byteLen s := by
  induction n with
  | zero => intro s p h; simpa [advanceToBoundaryAux]
  | succ n ih =>
    intro s p h
    simp only [advanceToBoundaryAux]
    split
    · next hc => exact ih s (p + 1) (by omega)
    · exact h

lemma advanceToBoundaryAux_boundary (n : Nat) : ∀ (s : List Char) (p : Nat),
    byteLen s - p ≤ n → p ≤ byteLen s →
    isCharBoundary s (advanceToBoundaryAux n s p) = true := by
  induction n with
  | zero =>
    intro s p h hp
    have : p = byteLen s := by omega
    simp [advanceToBoundaryAux, this, isCharBoundary_byteLen]
  | succ n ih =>
    intro s p h hp
    simp only [advanceToBoundaryAux]
    split
    · next hc => exact ih s (p + 1) (by omega) (by omega)
    · next hc =>
      rcases Nat.lt_or_ge p (byteLen s) with h1 | h1
      · rcases Bool.eq_false_or_eq_true (isCharBoundary s p) with h2 | h2
        · exact h2
        · exact absurd ⟨h1, h2⟩ hc
      · have : p = byteLen s := by omega
        rw [this]; exact isCharBoundary_byteLen s

lemma advanceToBoundaryAux_le_of_boundary (n : Nat) : ∀ (s : List Char) (p b : Nat),
    isCharBoundary s b = true → p ≤ b → advanceToBoundaryAux n s p ≤ b := by
  induction n with
  | zero => intro s p b _ h; simpa [advanceToBoundaryAux]
  | succ n ih =>
    intro s p b hb h
    simp only [advanceToBoundaryAux]
    split
    · next hc =>
      have hpb : p ≠ b := by
        intro he; rw [he] at hc; rw [hb] at hc; exact absurd hc.2 (by simp)
      exact ih s (p + 1) b hb (by omega)
    · exact h

lemma advance_ge (s : List Char) (p : Nat) : p ≤ advanceToBoundary s p :=
  advanceToBoundaryAux_ge _ s p

lemma advance_le (s : List Char) (p : Nat) (h : p ≤ byteLen s) :
    advanceToBoundary s p ≤ byteLen s :=
  advanceToBoundaryAux_le _ s p h

lemma advance_boundary (s : List Char) (p : Nat) (h : p ≤ byteLen s) :
    isCharBoundary s (advanceToBoundary s p) = true :=
  advanceToBoundaryAux_boundary _ s p (le_refl _) h

lemma advance_of_boundary (s : List Char) (p : Nat) (h : isCharBoundary s p = true) :
    advanceToBoundary s p = p := by
  unfold advanceToBoundary
  cases hn : byteLen s - p with
  | zero => rfl
  | succ n => simp [advanceToBoundaryAux, h]

lemma advance_le_of_boundary (s : List Char) (p b : Nat) (hb : isCharBoundary s b = true)
    (h : p ≤ b) : advanceToBoundary s p ≤ b :=
  advanceToBoundaryAux_le_of_boundary _ s p b hb h

lemma byteDrop_zero (s : List Char) : byteDrop s 0 = s := by cases s <;> rfl

lemma byteTake_all (s : List Char) : ∀ n, byteLen s ≤ n → byteTake s n = s := by
  induction s with
  | nil => intro n _; cases n <;> rfl
  | cons c t ih =>
    intro n h
    rw [byteLen_cons] at h
    have h1 := utf8Size_pos c
    obtain ⟨m, hm⟩ : ∃ m, n = m + 1 := ⟨n - 1, by omega⟩
    subst hm
    simp only [byteTake]
    rw [if_pos (by omega)]
    rw [ih (m + 1 - utf8Size c) (by omega)]

lemma byteSlice_zero_byteLen (s : List Char) : byteSlice s 0 (byteLen s) = s := by
  unfold byteSlice
  rw [byteDrop_zero]
  exact byteTake_all s _ (by omega)

lemma byteDrop_decomp (s : List Char) : ∀ p, isCharBoundary s p = true →
    ∃ pre, pre ++ byteDrop s p = s ∧ byteLen pre = p := by
  induction s with
  | nil =>
    intro p h
    cases p with
    | zero => exact ⟨[], by simp [byteDrop_zero], rfl⟩
    | succ q => simp [isCharBoundary] at h
  | cons c t ih =>
    intro p h
    cases p with
    | zero => exact ⟨[], by simp [byteDrop_zero], rfl⟩
    | succ q =>
      simp only [isCharBoundary] at h
      rcases Nat.lt_or_ge (q + 1) (utf8Size c) with h1 | h1
      · rw [if_pos h1] at h; exact absurd h (by simp)
      · rw [if_neg (by omega)] at h
        obtain ⟨pre, hpre, hlen⟩ := ih (q + 1 - utf8Size c) h
        refine ⟨c :: pre, ?_, ?_⟩
        · simp only [byteDrop]
          rw [if_neg (by omega)]
          simpa using hpre
        · rw [byteLen_cons, hlen]; omega

lemma byteLen_byteDrop (s : List Char) (p : Nat) (h : isCharBoundary s p = true) :
    byteLen (byteDrop s p) = byteLen s - p := by
  obtain ⟨pre, hpre, hlen⟩ := byteDrop_decomp s p h
  have := byteLen_append pre (byteDrop s p)
  rw [hpre] at this
  omega

lemma byteDrop_ne_nil (s : List Char) (p : Nat) (h : isCharBoundary s p = true)
    (h2 : p < byteLen s) : byteDrop s p ≠ [] := by
  intro he
  have := byteLen_byteDrop s p h
  rw [he, byteLen_nil] at this
  omega

lemma byteSlice_to_end (s : List Char) (p : Nat) (h : isCharBoundary s p = true) :
    byteSlice s p (byteLen s) = byteDrop s p := by
  unfold byteSlice
  exact byteTake_all _ _ (by rw [byteLen_byteDrop s p h])

lemma getLast?_byteDrop (s : List Char) (p : Nat) (h : isCharBoundary s p = true)
    (h2 : p < byteLen s) : (byteDrop s p).getLast? = s.getLast? := by
  obtain ⟨pre, hpre, _⟩ := byteDrop_decomp s p h
  conv_rhs => rw [← hpre]
  exact (List.getLast?_append_of_ne_nil pre (byteDrop_ne_nil s p h h2)).symm

lemma mem_dropWhile_of_not (p : Char → Bool) (l : List Char) (c : Char) (hc : p c = false)
    (h : c ∈ l) : c ∈ l.dropWhile p := by
  induction l with
  | nil => simp at h
  | cons d t ih =>
    rw [List.dropWhile_cons]
    split
    · next hd =>
      rcases List.mem_cons.mp h with h1 | h1
      · subst h1; rw [hd] at hc; exact absurd hc (by simp)
      · exact ih h1
    · exact h

lemma trimChars_ne_nil_of_mem (l : List Char) (c : Char) (h : c ∈ l)
    (hc : isRustWS c = false) : trimChars l ≠ [] := by
  unfold trimChars
  intro he
  have h1 : c ∈ l.dropWhile isRustWS := mem_dropWhile_of_not _ _ _ hc h
  have h2 : c ∈ (l.dropWhile isRustWS).reverse := List.mem_reverse.mpr h1
  have h3 : c ∈ ((l.dropWhile isRustWS).reverse.dropWhile isRustWS) :=
    mem_dropWhile_of_not _ _ _ hc h2
  rw [List.reverse_eq_nil_iff] at he
  rw [he] at h3
  simp at h3

lemma byteLen_ascii (l : List Char) (hA : ∀ c ∈ l, utf8Size c = 1) :
    byteLen l = l.length := by
  induction l with
  | nil => rfl
  | cons c t ih =>
    rw [byteLen_cons, hA c (by simp), ih (fun x hx => hA x (by simp [hx]))]
    simp [Nat.add_comm]

lemma isCharBoundary_ascii (l : List Char) (hA : ∀ c ∈ l, utf8Size c = 1) :
    ∀ p, isCharBoundary l p = decide (p ≤ l.length) := by
  induction l with
  | nil =>
    intro p
    cases p with
    | zero => rfl
    | succ q => simp [isCharBoundary]
  | cons c t ih =>
    intro p
    cases p with
    | zero => simp [isCharBoundary_zero]
    | succ q =>
      simp only [isCharBoundary]
      rw [hA c (by simp)]
      rw [if_neg (by omega)]
      rw [ih (fun x hx => hA x (by simp [hx])) (q + 1 - 1)]
      simp

lemma byteDrop_ascii (l : List Char) (hA : ∀ c ∈ l, utf8Size c = 1) :
    ∀ p, byteDrop l p = l.drop p := by
  induction l with
  | nil => intro p; cases p <;> rfl
  | cons c t ih =>
    intro p
    cases p with
    | zero => rw [byteDrop_zero]; rfl
    | succ q =>
      simp only [byteDrop]
      rw [hA c (by simp)]
      rw [if_neg (by omega)]
      rw [ih (fun x hx => hA x (by simp [hx])) (q + 1 - 1)]
      simp

lemma byteTake_ascii (l : List Char) (hA : ∀ c ∈ l, utf8Size c = 1) :
    ∀ p, byteTake l p = l.take p := by
  induction l with
  | nil => intro p; cases p <;> rfl
  | cons c t ih =>
    intro p
    cases p with
    | zero => rfl
    | succ q =>
      simp only [byteTake]
      rw [hA c (by simp)]
      rw [if_pos (by omega)]
      rw [ih (fun x hx => hA x (by simp [hx])) (q + 1 - 1)]
      simp

lemma advance_ascii (l : List Char) (hA : ∀ c ∈ l, utf8Size c = 1) (p : Nat)
    (h : p ≤ l.length) : advanceToBoundary l p = p := by
  apply advance_of_boundary
  rw [isCharBoundary_ascii l hA p]
  simpa

lemma dropWhile_append_of_all (p : Char → Bool) (l1 l2 : List Char)
    (h : ∀ c ∈ l1, p c = true) : (l1 ++ l2).dropWhile p = l2.dropWhile p := by
  induction l1 with
  | nil => rfl
  | cons c t ih =>
    rw [List.cons_append, List.dropWhile_cons, if_pos (h c (by simp))]
    exact ih (fun x hx => h x (by simp [hx]))

lemma dropWhile_all_eq_nil (p : Char → Bool) (l : List Char) (h : ∀ c ∈ l, p c = true) :
    l.dropWhile p = [] :=
  List.dropWhile_eq_nil_iff.mpr h

lemma dropWhile_replicate_not (p : Char → Bool) (c : Char) (n : Nat) (h : p c = false) :
    (List.replicate n c).dropWhile p = List.replicate n c := by
  cases n with
  | zero => rfl
  | succ m => rw [List.replicate_succ, List.dropWhile_cons, if_neg (by simp [h])]

lemma trim_replicate_nonws (c : Char) (n : Nat) (hc : isRustWS c = false) :
    trimChars (List.replicate n c) = List.replicate n c := by
  unfold trimChars
  rw [dropWhile_replicate_not _ _ _ hc, List.reverse_replicate,
    dropWhile_replicate_not _ _ _ hc, List.reverse_replicate]

lemma trim_replicate_ws (c : Char) (n : Nat) (hc : isRustWS c = true) :
    trimChars (List.replicate n c) = [] := by
  unfold trimChars
  have h1 : (List.replicate n c).dropWhile isRustWS = [] :=
    dropWhile_all_eq_nil _ _ (by intro x hx; rw [List.eq_of_mem_replicate hx]; exact hc)
  rw [h1]
  rfl

lemma trim_rep_append (a b : Char) (k m : Nat) (ha : isRustWS a = false)
    (hb : isRustWS b = true) :
    trimChars (List.replicate k a ++ List.replicate m b) = List.replicate k a := by
  cases k with
  | zero =>
    simp only [List.replicate_zero, List.nil_append]
    exact trim_replicate_ws b m hb
  | succ j =>
    unfold trimChars
    rw [List.replicate_succ, List.cons_append, List.dropWhile_cons, if_neg (by simp [ha])]
    rw [← List.cons_append, ← List.replicate_succ]
    rw [List.reverse_append, List.reverse_replicate, List.reverse_replicate]
    rw [dropWhile_append_of_all _ _ _
      (by intro x hx; rw [List.eq_of_mem_replicate hx]; exact hb)]
    rw [dropWhile_replicate_not _ _ _ ha, List.reverse_replicate]

lemma rfindDotSpace_eq_none (l : List Char) (h : '.' ∉ l) : rfindDotSpace l = none := by
  induction l with
  | nil => rfl
  | cons c1 t ih =>
    cases t with
    | nil => rfl
    | cons c2 r =>
      have hne : '.' ∉ c2 :: r := fun hm => h (List.mem_cons_of_mem c1 hm)
      simp only [rfindDotSpace]
      rw [ih hne]
      have : ¬(c1 = '.' ∧ c2 = ' ') := by
        rintro ⟨h1, _⟩
        exact h (by simp [h1])
      simp [this]

lemma mem_byteDrop_subset (l : List Char) : ∀ n x, x ∈ byteDrop l n → x ∈ l := by
  induction l with
  | nil => intro n x hx; cases n <;> simp [byteDrop] at hx
  | cons c t ih =>
    intro n x hx
    cases n with
    | zero => rw [byteDrop_zero] at hx; exact hx
    | succ q =>
      simp only [byteDrop] at hx
      split at hx
      · exact List.mem_cons_of_mem c hx
      · exact List.mem_cons_of_mem c (ih _ x hx)

lemma mem_byteTake_subset (l : List Char) : ∀ n x, x ∈ byteTake l n → x ∈ l := by
  induction l with
  | nil => intro n x hx; cases n <;> simp [byteTake] at hx
  | cons c t ih =>
    intro n x hx
    cases n with
    | zero => simp [byteTake] at hx
    | succ q =>
      simp only [byteTake] at hx
      split at hx
      · rcases List.mem_cons.mp hx with h1 | h1
        · simp [h1]
        · exact List.mem_cons_of_mem c (ih _ x h1)
      · simp at hx

lemma mem_byteSlice_subset (l : List Char) (a b : Nat) (x : Char)
    (hx : x ∈ byteSlice l a b) : x ∈ l :=
  mem_byteDrop_subset l a x (mem_byteTake_subset _ _ x hx)

/-! ### Chunker characterization lemmas -/

lemma chunkTarget_eq (ft : List Char) (cur : Nat) (h : cur < byteLen ft) :
    chunkTarget ft cur = advanceToBoundary ft (min (cur + CHUNK_SIZE) (byteLen ft)) := by
  have h0 : cur < min (cur + CHUNK_SIZE) (byteLen ft) := by
    have : 0 < CHUNK_SIZE := by unfold CHUNK_SIZE; norm_num
    omega
  have h1 := advance_ge ft (min (cur + CHUNK_SIZE) (byteLen ft))
  have h2 := advance_le ft (min (cur + CHUNK_SIZE) (byteLen ft)) (by omega)
  simp only [chunkTarget]
  rw [if_neg (by omega)]
  omega

lemma chunkTarget_facts (ft : List Char) (cur : Nat) (h : cur < byteLen ft) :
    cur < chunkTarget ft cur ∧ chunkTarget ft cur ≤ byteLen ft ∧
    isCharBoundary ft (chunkTarget ft cur) = true := by
  rw [chunkTarget_eq ft cur h]
  have h0 : cur < min (cur + CHUNK_SIZE) (byteLen ft) := by
    have : 0 < CHUNK_SIZE := by unfold CHUNK_SIZE; norm_num
    omega
  have hle : min (cur + CHUNK_SIZE) (byteLen ft) ≤ byteLen ft := by omega
  exact ⟨lt_of_lt_of_le h0 (advance_ge _ _), advance_le _ _ hle, advance_boundary _ _ hle⟩

lemma sentenceSnapEnd_facts (ft : List Char) (cur te : Nat) (h1 : cur < te)
    (h2 : te ≤ byteLen ft) (h3 : isCharBoundary ft te = true) :
    cur < sentenceSnapEnd ft cur te ∧ sentenceSnapEnd ft cur te ≤ byteLen ft ∧
    isCharBoundary ft (sentenceSnapEnd ft cur te) = true := by
  have hlim := advance_le ft (min (te + 100) (byteLen ft)) (by omega)
  simp only [sentenceSnapEnd]
  split
  · split
    · split
      · split
        · next habs => exact ⟨habs.1, le_trans habs.2.1 hlim, habs.2.2⟩
        · exact ⟨h1, h2, h3⟩
      · exact ⟨h1, h2, h3⟩
    · exact ⟨h1, h2, h3⟩
  · exact ⟨h1, h2, h3⟩

lemma chunkEnd_facts (ft : List Char) (cur : Nat) (h : cur < byteLen ft) :
    cur < chunkEnd ft cur ∧ chunkEnd ft cur ≤ byteLen ft ∧
    isCharBoundary ft (chunkEnd ft cur) = true := by
  obtain ⟨ht1, ht2, ht3⟩ := chunkTarget_facts ft cur h
  obtain ⟨hs1, hs2, hs3⟩ := sentenceSnapEnd_facts ft cur (chunkTarget ft cur) ht1 ht2 ht3
  simp only [chunkEnd]
  rw [if_neg (by omega)]
  exact ⟨hs1, hs2, hs3⟩

lemma chunkStep_stop (ft : List Char) (url : String) (cur0 idx : Nat)
    (h : byteLen ft ≤ advanceToBoundary ft cur0) :
    chunkStep ft url cur0 idx = ([], none) := by
  simp only [chunkStep]
  rw [if_pos h]

lemma chunkStep_go (ft : List Char) (url : String) (cur0 idx : Nat)
    (h : advanceToBoundary ft cur0 < byteLen ft) :
    chunkStep ft url cur0 idx =
      ((if trimChars (byteSlice ft (advanceToBoundary ft cur0)
            (chunkEnd ft (advanceToBoundary ft cur0))) = [] then []
        else [⟨url ++ "#chunk" ++ toString idx,
              trimChars (byteSlice ft (advanceToBoundary ft cur0)
                (chunkEnd ft (advanceToBoundary ft cur0))),
              advanceToBoundary ft cur0, chunkEnd ft (advanceToBoundary ft cur0), none⟩]),
       some ((if chunkEnd ft (advanceToBoundary ft cur0) - OVERLAP ≤ advanceToBoundary ft cur0
              then chunkEnd ft (advanceToBoundary ft cur0)
              else chunkEnd ft (advanceToBoundary ft cur0) - OVERLAP),
             (if trimChars (byteSlice ft (advanceToBoundary ft cur0)
                  (chunkEnd ft (advanceToBoundary ft cur0))) = [] then idx else idx + 1))) := by
  obtain ⟨ht1, ht2, ht3⟩ := chunkTarget_facts ft (advanceToBoundary ft cur0) h
  obtain ⟨he1, he2, he3⟩ := chunkEnd_facts ft (advanceToBoundary ft cur0) h
  simp only [chunkStep]
  rw [if_neg (by omega), if_neg (by omega)]
  by_cases hc : chunkEnd ft (advanceToBoundary ft cur0) - OVERLAP ≤ advanceToBoundary ft cur0
  · rw [if_pos ⟨hc, he1⟩, if_pos hc]
  · rw [if_neg (by rintro ⟨h1, _⟩; exact hc h1), if_pos (by omega), if_neg hc]

lemma chunkLoopF_stop (fuel : Nat) (ft : List Char) (url : String) (cur0 idx : Nat)
    (h : byteLen ft ≤ advanceToBoundary ft cur0) :
    chunkLoopF fuel ft url cur0 idx = [] := by
  cases fuel with
  | zero => rfl
  | succ f => simp [chunkLoopF, chunkStep_stop ft url cur0 idx h]

lemma chunkLoopF_cont (fuel f : Nat) (ft : List Char) (url : String) (cur0 idx : Nat)
    (em : List TextChunk) (c' i' : Nat)
    (hstep : chunkStep ft url cur0 idx = (em, some (c', i'))) (hf : fuel = f + 1) :
    chunkLoopF fuel ft url cur0 idx = em ++ chunkLoopF f ft url c' i' := by
  subst hf
  simp [chunkLoopF, hstep]

lemma chunkLoopF_of_none (fuel f : Nat) (ft : List Char) (url : String) (cur0 idx : Nat)
    (em : List TextChunk)
    (hstep : chunkStep ft url cur0 idx = (em, none)) (hf : fuel = f + 1) :
    chunkLoopF fuel ft url cur0 idx = em := by
  subst hf
  simp [chunkLoopF, hstep]

lemma sentenceSnap_simple (ft : List Char) (cur te : Nat)
    (hA : ∀ c ∈ ft, utf8Size c = 1) (hD : '.' ∉ ft) (hte : te ≤ ft.length) :
    sentenceSnapEnd ft cur te = te := by
  have hlen := byteLen_ascii ft hA
  have hnone : ∀ a b : Nat, rfindDotSpace (byteSlice ft a b) = none := by
    intro a b
    apply rfindDotSpace_eq_none
    intro hmem
    exact hD (mem_byteSlice_subset ft a b '.' hmem)
  simp only [sentenceSnapEnd]
  split
  · split
    · rw [hnone]
    · rfl
  · rfl

lemma chunkEnd_simple (ft : List Char) (cur : Nat)
    (hA : ∀ c ∈ ft, utf8Size c = 1) (hD : '.' ∉ ft) (h : cur < ft.length) :
    chunkEnd ft cur = min (cur + CHUNK_SIZE) ft.length := by
  have hlen := byteLen_ascii ft hA
  have h' : cur < byteLen ft := by omega
  have ht : chunkTarget ft cur = min (cur + CHUNK_SIZE) ft.length := by
    rw [chunkTarget_eq ft cur h', hlen]
    exact advance_ascii ft hA _ (by omega)
  have hs : sentenceSnapEnd ft cur (chunkTarget ft cur) = chunkTarget ft cur := by
    rw [ht]
    exact sentenceSnap_simple ft cur _ hA hD (by omega)
  have h0 : cur < min (cur + CHUNK_SIZE) ft.length := by
    have : 0 < CHUNK_SIZE := by unfold CHUNK_SIZE; norm_num
    omega
  simp only [chunkEnd]
  rw [hs, ht, if_neg (by omega)]

lemma byteSlice_ascii (ft : List Char) (hA : ∀ c ∈ ft, utf8Size c = 1) (a b : Nat) :
    byteSlice ft a b = (ft.drop a).take (b - a) := by
  unfold byteSlice
  rw [byteDrop_ascii ft hA a]
  exact byteTake_ascii (ft.drop a) (fun c hc => hA c (List.drop_subset a ft hc)) (b - a)

lemma chunkStep_simple (ft : List Char) (url : String) (cur idx : Nat)
    (hA : ∀ c ∈ ft, utf8Size c = 1) (hD : '.' ∉ ft) (h : cur < ft.length) :
    chunkStep ft url cur idx =
      ((if trimChars ((ft.drop cur).take (min (cur + CHUNK_SIZE) ft.length - cur)) = [] then []
        else [⟨url ++ "#chunk" ++ toString idx,
              trimChars ((ft.drop cur).take (min (cur + CHUNK_SIZE) ft.length - cur)),
              cur, min (cur + CHUNK_SIZE) ft.length, none⟩]),
       some ((if min (cur + CHUNK_SIZE) ft.length - OVERLAP ≤ cur
              then min (cur + CHUNK_SIZE) ft.length
              else min (cur + CHUNK_SIZE) ft.length - OVERLAP),
             (if trimChars ((ft.drop cur).take (min (cur + CHUNK_SIZE) ft.length - cur)) = []
              then idx else idx + 1))) := by
  have hlen := byteLen_ascii ft hA
  have hadv : advanceToBoundary ft cur = cur := advance_ascii ft hA cur (by omega)
  have hgo := chunkStep_go ft url cur idx (by rw [hadv]; omega)
  rw [hadv] at hgo
  rw [chunkEnd_simple ft cur hA hD h] at hgo
  rw [byteSlice_ascii ft hA] at hgo
  exact hgo

/-! ### Concrete chunker runs -/

lemma rep_a_ascii (n : Nat) : ∀ c ∈ List.replicate n 'a', utf8Size c = 1 := by
  intro c hc; rw [List.eq_of_mem_replicate hc]; decide

lemma rep_a_nodot (n : Nat) : '.' ∉ List.replicate n 'a' := by
  intro h; exact absurd (List.eq_of_mem_replicate h) (by decide)

lemma chunkStep_rep (n cur idx : Nat) (url : String) (h : cur < n) :
    chunkStep (List.replicate n 'a') url cur idx =
      ([⟨url ++ "#chunk" ++ toString idx, List.replicate (min (cur + CHUNK_SIZE) n - cur) 'a',
         cur, min (cur + CHUNK_SIZE) n, none⟩],
       some ((if min (cur + CHUNK_SIZE) n - OVERLAP ≤ cur then min (cur + CHUNK_SIZE) n
              else min (cur + CHUNK_SIZE) n - OVERLAP), idx + 1)) := by
  have hs := chunkStep_simple (List.replicate n 'a') url cur idx (rep_a_ascii n)
    (rep_a_nodot n) (by simpa using h)
  rw [List.length_replicate] at hs
  have hslice : ((List.replicate n 'a').drop cur).take (min (cur + CHUNK_SIZE) n - cur)
      = List.replicate (min (cur + CHUNK_SIZE) n - cur) 'a' := by
    rw [List.drop_replicate, List.take_replicate]
    congr 1
    omega
  rw [hslice] at hs
  rw [trim_replicate_nonws _ _ (by decide)] at hs
  have hne : List.replicate (min (cur + CHUNK_SIZE) n - cur) 'a' ≠ [] := by
    have hpos : 0 < CHUNK_SIZE := by unfold CHUNK_SIZE; norm_num
    simp only [ne_eq, List.replicate_eq_nil_iff]
    omega
  rw [if_neg hne, if_neg hne] at hs
  exact hs

lemma byteLen_exC4 : byteLen exC4text = 2200 := by
  rw [exC4text, byteLen_ascii _ (rep_a_ascii _)]; simp

lemma create_chunks_exC4 :
    create_chunks exC4text "u" =
      [⟨"u" ++ "#chunk" ++ toString 0, List.replicate 1000 'a', 0, 1000, none⟩,
       ⟨"u" ++ "#chunk" ++ toString 1, List.replicate 1000 'a', 800, 1800, none⟩,
       ⟨"u" ++ "#chunk" ++ toString 2, List.replicate 600 'a', 1600, 2200, none⟩,
       ⟨"u" ++ "#chunk" ++ toString 3, List.replicate 200 'a', 2000, 2200, none⟩] := by
  have h0 : chunkStep exC4text "u" 0 0 =
      ([⟨"u" ++ "#chunk" ++ toString 0, List.replicate 1000 'a', 0, 1000, none⟩],
       some (800, 1)) := by
    rw [exC4text]
    have h := chunkStep_rep 2200 0 0 "u" (by norm_num)
    simp only [CHUNK_SIZE, OVERLAP] at h
    norm_num at h
    exact h
  have h1 : chunkStep exC4text "u" 800 1 =
      ([⟨"u" ++ "#chunk" ++ toString 1, List.replicate 1000 'a', 800, 1800, none⟩],
       some (1600, 2)) := by
    rw [exC4text]
    have h := chunkStep_rep 2200 800 1 "u" (by norm_num)
    simp only [CHUNK_SIZE, OVERLAP] at h
    norm_num at h
    exact h
  have h2 : chunkStep exC4text "u" 1600 2 =
      ([⟨"u" ++ "#chunk" ++ toString 2, List.replicate 600 'a', 1600, 2200, none⟩],
       some (2000, 3)) := by
    rw [exC4text]
    have h := chunkStep_rep 2200 1600 2 "u" (by norm_num)
    simp only [CHUNK_SIZE, OVERLAP] at h
    norm_num at h
    exact h
  have h3 : chunkStep exC4text "u" 2000 3 =
      ([⟨"u" ++ "#chunk" ++ toString 3, List.replicate 200 'a', 2000, 2200, none⟩],
       some (2200, 4)) := by
    rw [exC4text]
    have h := chunkStep_rep 2200 2000 3 "u" (by norm_num)
    simp only [CHUNK_SIZE, OVERLAP] at h
    norm_num at h
    exact h
  have h4 : chunkLoopF 2197 exC4text "u" 2200 4 = [] := by
    apply chunkLoopF_stop
    rw [byteLen_exC4]
    calc (2200:Nat) ≤ 2200 := le_refl _
      _ ≤ advanceToBoundary exC4text 2200 := advance_ge _ _
  have hne : exC4text ≠ [] := by
    rw [exC4text]; simp
  unfold create_chunks
  rw [if_neg hne, byteLen_exC4]
  rw [chunkLoopF_cont 2201 2200 exC4text "u" 0 0 _ 800 1 h0 (by norm_num)]
  rw [chunkLoopF_cont 2200 2199 exC4text "u" 800 1 _ 1600 2 h1 (by norm_num)]
  rw [chunkLoopF_cont 2199 2198 exC4text "u" 1600 2 _ 2000 3 h2 (by norm_num)]
  rw [chunkLoopF_cont 2198 2197 exC4text "u" 2000 3 _ 2200 4 h3 (by norm_num)]
  rw [h4]
  simp

/-! ### Chunker safety invariants (claim C5) -/

lemma mem_of_getLast?_eq (l : List Char) (c : Char) (h : l.getLast? = some c) : c ∈ l := by
  obtain ⟨hne, hc⟩ := List.mem_getLast?_eq_getLast (show c ∈ l.getLast? from h)
  rw [hc]
  exact List.getLast_mem hne

lemma chunkLoopF_safe (fuel : Nat) : ∀ (ft : List Char) (url : String) (cur0 idx : Nat),
    cur0 ≤ byteLen ft →
    (∀ c ∈ chunkLoopF fuel ft url cur0 idx,
      isCharBoundary ft c.char_start = true ∧ isCharBoundary ft c.char_end = true ∧
      c.char_start < c.char_end ∧ c.char_end ≤ byteLen ft ∧ cur0 ≤ c.char_start) ∧
    (chunkLoopF fuel ft url cur0 idx).Pairwise (fun a b => a.char_start < b.char_start) := by
  induction fuel with
  | zero =>
    intro ft url cur0 idx _
    exact ⟨by intro c hc; simp [chunkLoopF] at hc, by simp [chunkLoopF]⟩
  | succ f ih =>
    intro ft url cur0 idx h
    by_cases h1 : byteLen ft ≤ advanceToBoundary ft cur0
    · rw [chunkLoopF_stop _ ft url cur0 idx h1]
      exact ⟨by intro c hc; simp at hc, List.Pairwise.nil⟩
    · push_neg at h1
      obtain ⟨hce1, hce2, hce3⟩ := chunkEnd_facts ft (advanceToBoundary ft cur0) h1
      have hcur0 : cur0 ≤ advanceToBoundary ft cur0 := advance_ge ft cur0
      have hbnd : isCharBoundary ft (advanceToBoundary ft cur0) = true := advance_boundary ft cur0 h
      rw [chunkLoopF_cont (f + 1) f ft url cur0 idx _
        (if chunkEnd ft (advanceToBoundary ft cur0) - OVERLAP ≤ advanceToBoundary ft cur0
         then chunkEnd ft (advanceToBoundary ft cur0)
         else chunkEnd ft (advanceToBoundary ft cur0) - OVERLAP)
        (if trimChars (byteSlice ft (advanceToBoundary ft cur0)
            (chunkEnd ft (advanceToBoundary ft cur0))) = [] then idx else idx + 1)
        (chunkStep_go ft url cur0 idx h1) rfl]
      set cur := advanceToBoundary ft cur0 with hcurdef
      set ce := chunkEnd ft cur with hcedef
      set nxt := (if ce - OVERLAP ≤ cur then ce else ce - OVERLAP) with hnxtdef
      have hnxt1 : cur < nxt := by
        rw [hnxtdef]; split
        · exact hce1
        · next hn => omega
      have hnxt2 : nxt ≤ byteLen ft := by
        rw [hnxtdef]; split
        · exact hce2
        · omega
      have hrec := ih ft url nxt
        (if trimChars (byteSlice ft cur ce) = [] then idx else idx + 1) (by omega)
      by_cases ht : trimChars (byteSlice ft cur ce) = []
      · rw [if_pos ht]
        simp only [List.nil_append]
        refine ⟨?_, hrec.2⟩
        intro c hc
        obtain ⟨a1, a2, a3, a4, a5⟩ := hrec.1 c hc
        exact ⟨a1, a2, a3, a4, by omega⟩
      · rw [if_neg ht]
        simp only [List.singleton_append]
        constructor
        · intro c hc
          rcases List.mem_cons.mp hc with hc1 | hc1
          · rw [hc1]
            exact ⟨hbnd, hce3, hce1, hce2, hcur0⟩
          · obtain ⟨a1, a2, a3, a4, a5⟩ := hrec.1 c hc1
            exact ⟨a1, a2, a3, a4, by omega⟩
        · rw [List.pairwise_cons]
          refine ⟨?_, hrec.2⟩
          intro b hb
          have := (hrec.1 b hb).2.2.2.2
          show cur < b.char_start
          omega

lemma chunkLoopF_lastEnd (ft : List Char) (url : String)
    (hws : ∀ c, ft.getLast? = some c → isRustWS c = false) :
    ∀ (fuel : Nat), ∀ (cur0 idx : Nat), byteLen ft - cur0 < fuel → cur0 ≤ byteLen ft →
    advanceToBoundary ft cur0 < byteLen ft →
    (chunkLoopF fuel ft url cur0 idx).getLast?.map TextChunk.char_end =
      some (byteLen ft) := by
  intro fuel
  induction fuel with
  | zero => intro cur0 idx hf h0 hlt; omega
  | succ f ih =>
    intro cur0 idx hf h0 hlt
    obtain ⟨hce1, hce2, hce3⟩ := chunkEnd_facts ft (advanceToBoundary ft cur0) hlt
    have hcur0 : cur0 ≤ advanceToBoundary ft cur0 := advance_ge ft cur0
    have hbnd : isCharBoundary ft (advanceToBoundary ft cur0) = true := advance_boundary ft cur0 h0
    rw [chunkLoopF_cont (f + 1) f ft url cur0 idx _
      (if chunkEnd ft (advanceToBoundary ft cur0) - OVERLAP ≤ advanceToBoundary ft cur0
       then chunkEnd ft (advanceToBoundary ft cur0)
       else chunkEnd ft (advanceToBoundary ft cur0) - OVERLAP)
      (if trimChars (byteSlice ft (advanceToBoundary ft cur0)
          (chunkEnd ft (advanceToBoundary ft cur0))) = [] then idx else idx + 1)
      (chunkStep_go ft url cur0 idx hlt) rfl]
    set cur := advanceToBoundary ft cur0 with hcurdef
    set ce := chunkEnd ft cur with hcedef
    set nxt := (if ce - OVERLAP ≤ cur then ce else ce - OVERLAP) with hnxtdef
    have hnxt1 : cur < nxt := by
      rw [hnxtdef]; split
      · exact hce1
      · next hn => omega
    have hnxt2 : nxt ≤ ce := by
      rw [hnxtdef]; split
      · exact le_refl ce
      · omega
    by_cases h2 : advanceToBoundary ft nxt < byteLen ft
    · have hrest := ih nxt
        (if trimChars (byteSlice ft cur ce) = [] then idx else idx + 1)
        (by omega) (by omega) h2
      have hrne : chunkLoopF f ft url nxt
          (if trimChars (byteSlice ft cur ce) = [] then idx else idx + 1) ≠ [] := by
        intro he
        rw [he] at hrest
        simp at hrest
      rw [List.getLast?_append_of_ne_nil _ hrne]
      exact hrest
    · push_neg at h2
      have hcelen : ce = byteLen ft := by
        have := advance_le_of_boundary ft nxt ce hce3 hnxt2
        omega
      rw [chunkLoopF_stop f ft url nxt _ h2, List.append_nil]
      have hne : trimChars (byteSlice ft cur ce) ≠ [] := by
        rw [hcelen, byteSlice_to_end ft cur hbnd]
        obtain ⟨c, hc⟩ : ∃ c, ft.getLast? = some c := by
          cases hft : ft.getLast? with
          | none =>
            have : ft = [] := by simpa using hft
            rw [this] at hlt
            simp [byteLen_nil] at hlt
          | some c => exact ⟨c, rfl⟩
        have hlast : (byteDrop ft cur).getLast? = some c := by
          rw [getLast?_byteDrop ft cur hbnd hlt, hc]
        exact trimChars_ne_nil_of_mem _ c (mem_of_getLast?_eq _ c hlast) (hws c hc)
      rw [if_neg hne]
      simp [hcelen]

lemma exC5_ascii : ∀ c ∈ exC5text, utf8Size c = 1 := by
  intro c hc
  rw [exC5text] at hc
  rcases List.mem_append.mp hc with h1 | h1
  · rw [List.eq_of_mem_replicate h1]; decide
  · rw [List.eq_of_mem_replicate h1]; decide

lemma exC5_nodot : '.' ∉ exC5text := by
  intro hc
  rcases List.mem_append.mp hc with h1 | h1
  · exact absurd (List.eq_of_mem_replicate h1) (by decide)
  · exact absurd (List.eq_of_mem_replicate h1) (by decide)

lemma exC5_len : exC5text.length = 1200 := by
  rw [exC5text]; simp

lemma byteLen_exC5 : byteLen exC5text = 1200 := by
  rw [byteLen_ascii _ exC5_ascii, exC5_len]

lemma create_chunks_exC5 :
    create_chunks exC5text "u" =
      [⟨"u" ++ "#chunk" ++ toString 0, List.replicate 300 'a', 0, 1000, none⟩] := by
  have h0 : chunkStep exC5text "u" 0 0 =
      ([⟨"u" ++ "#chunk" ++ toString 0, List.replicate 300 'a', 0, 1000, none⟩],
       some (800, 1)) := by
    have h := chunkStep_simple exC5text "u" 0 0 exC5_ascii exC5_nodot (by rw [exC5_len]; norm_num)
    rw [exC5_len] at h
    simp only [CHUNK_SIZE, OVERLAP] at h
    norm_num at h
    have hslice : List.take 1000 exC5text =
        List.replicate 300 'a' ++ List.replicate 700 ' ' := by
      rw [exC5text, List.take_append_eq_append_take]
      rw [List.take_replicate, List.take_replicate]
      simp
    rw [hslice, trim_rep_append 'a' ' ' 300 700 (by decide) (by decide)] at h
    have hne : List.replicate 300 'a' ≠ [] := by simp
    rw [if_neg hne, if_neg hne] at h
    exact h
  have h1 : chunkStep exC5text "u" 800 1 = ([], some (1000, 1)) := by
    have h := chunkStep_simple exC5text "u" 800 1 exC5_ascii exC5_nodot
      (by rw [exC5_len]; norm_num)
    rw [exC5_len] at h
    simp only [CHUNK_SIZE, OVERLAP] at h
    norm_num at h
    have hslice : (exC5text.drop 800).take 400 = List.replicate 400 ' ' := by
      rw [exC5text, List.drop_append_eq_append_drop]
      rw [List.drop_replicate, List.drop_replicate]
      simp
    rw [hslice, trim_replicate_ws ' ' 400 (by decide)] at h
    simpa using h
  have h2 : chunkStep exC5text "u" 1000 1 = ([], some (1200, 1)) := by
    have h := chunkStep_simple exC5text "u" 1000 1 exC5_ascii exC5_nodot
      (by rw [exC5_len]; norm_num)
    rw [exC5_len] at h
    simp only [CHUNK_SIZE, OVERLAP] at h
    norm_num at h
    have hslice : (exC5text.drop 1000).take 200 = List.replicate 200 ' ' := by
      rw [exC5text, List.drop_append_eq_append_drop]
      rw [List.drop_replicate, List.drop_replicate]
      simp
    rw [hslice, trim_replicate_ws ' ' 200 (by decide)] at h
    simpa using h
  have h3 : chunkLoopF 1198 exC5text "u" 1200 1 = [] := by
    apply chunkLoopF_stop
    rw [byteLen_exC5]
    exact le_trans (le_refl 1200) (advance_ge _ _)
  have hne : exC5text ≠ [] := by
    rw [exC5text]; simp
  unfold create_chunks
  rw [if_neg hne, byteLen_exC5]
  rw [chunkLoopF_cont 1201 1200 exC5text "u" 0 0 _ 800 1 h0 (by norm_num)]
  rw [chunkLoopF_cont 1200 1199 exC5text "u" 800 1 _ 1000 1 h1 (by norm_num)]
  rw [chunkLoopF_cont 1199 1198 exC5text "u" 1000 1 _ 1200 1 h2 (by norm_num)]
  rw [h3]
  simp

lemma byteLen_exC3 : byteLen exC3text = 500 := by
  rw [exC3text, byteLen_ascii _ (rep_a_ascii _)]; simp

lemma create_chunks_exC3 :
    create_chunks exC3text "u" =
      [⟨"u" ++ "#chunk" ++ toString 0, List.replicate 500 'a', 0, 500, none⟩,
       ⟨"u" ++ "#chunk" ++ toString 1, List.replicate 200 'a', 300, 500, none⟩] := by
  have h0 : chunkStep exC3text "u" 0 0 =
      ([⟨"u" ++ "#chunk" ++ toString 0, List.replicate 500 'a', 0, 500, none⟩],
       some (300, 1)) := by
    rw [exC3text]
    have h := chunkStep_rep 500 0 0 "u" (by norm_num)
    simp only [CHUNK_SIZE, OVERLAP] at h
    norm_num at h
    exact h
  have h1 : chunkStep exC3text "u" 300 1 =
      ([⟨"u" ++ "#chunk" ++ toString 1, List.replicate 200 'a', 300, 500, none⟩],
       some (500, 2)) := by
    rw [exC3text]
    have h := chunkStep_rep 500 300 1 "u" (by norm_num)
    simp only [CHUNK_SIZE, OVERLAP] at h
    norm_num at h
    exact h
  have h2 : chunkLoopF 499 exC3text "u" 500 2 = [] := by
    apply chunkLoopF_stop
    rw [byteLen_exC3]
    exact le_trans (le_refl 500) (advance_ge _ _)
  have hne : exC3text ≠ [] := by
    rw [exC3text]; simp
  unfold create_chunks
  rw [if_neg hne, byteLen_exC3]
  rw [chunkLoopF_cont 501 500 exC3text "u" 0 0 _ 300 1 h0 (by norm_num)]
  rw [chunkLoopF_cont 500 499 exC3text "u" 300 1 _ 500 2 h1 (by norm_num)]
  rw [h2]
  simp

lemma sentenceSnapEnd_at_end (ft : List Char) (cur te : Nat) (h : byteLen ft ≤ te) :
    sentenceSnapEnd ft cur te = te := by
  simp only [sentenceSnapEnd]
  rw [if_neg (by omega)]

/-- C3 counterexample: a 500-byte text — non-empty, shorter than the chunk
size of 1000, and with non-empty trim — yields two chunks `[0,500)` and
`[300,500)`, not exactly one chunk, refuting the claim as stated. -/
theorem claim_C3_counterexample :
    0 < byteLen exC3text ∧ byteLen exC3text < CHUNK_SIZE ∧
    (create_chunks exC3text "u").length = 2 ∧
    (create_chunks exC3text "u").length ≠ 1 ∧
    (create_chunks exC3text "u").map TextChunk.char_start = [0, 300] := by
  rw [create_chunks_exC3, byteLen_exC3]
  refine ⟨by norm_num, by unfold CHUNK_SIZE; norm_num, rfl, by simp, by simp⟩

/-- C3 (amended): the empty text yields zero chunks, and a text of non-zero
length at most the overlap (200 bytes) whose trim is non-empty yields exactly
one chunk spanning the whole text.  (Texts with length in `(200, 1000)` get a
second, trailing-overlap chunk, and whitespace-only texts get none.) -/
theorem claim_C3_amended : ∀ (ft : List Char) (url : String),
    create_chunks [] url = [] ∧
    (0 < byteLen ft → byteLen ft ≤ OVERLAP → trimChars ft ≠ [] →
      create_chunks ft url =
        [⟨url ++ "#chunk" ++ toString 0, trimChars ft, 0, byteLen ft, none⟩]) := by
  intro ft url
  constructor
  · rfl
  · intro h1 h2 h3
    have hne : ft ≠ [] := by
      intro he; rw [he, byteLen_nil] at h1; omega
    have hadv0 : advanceToBoundary ft 0 = 0 := advance_of_boundary ft 0 (isCharBoundary_zero ft)
    have hlt : advanceToBoundary ft 0 < byteLen ft := by rw [hadv0]; omega
    have hCS : OVERLAP < CHUNK_SIZE := by unfold OVERLAP CHUNK_SIZE; norm_num
    have ht : chunkTarget ft 0 = byteLen ft := by
      rw [chunkTarget_eq ft 0 (by omega)]
      have hmin : min (0 + CHUNK_SIZE) (byteLen ft) = byteLen ft := by omega
      rw [hmin]
      exact advance_of_boundary ft _ (isCharBoundary_byteLen ft)
    have hsnap : sentenceSnapEnd ft 0 (chunkTarget ft 0) = byteLen ft := by
      rw [ht]; exact sentenceSnapEnd_at_end ft 0 _ (le_refl _)
    have hce : chunkEnd ft 0 = byteLen ft := by
      simp only [chunkEnd]
      rw [hsnap, ht, if_neg (by omega)]
    have hstep := chunkStep_go ft url 0 0 hlt
    rw [hadv0, hce, byteSlice_zero_byteLen] at hstep
    rw [if_neg h3, if_neg h3] at hstep
    have hnxt : (if byteLen ft - OVERLAP ≤ 0 then byteLen ft else byteLen ft - OVERLAP) =
        byteLen ft := by
      rw [if_pos (by omega)]
    rw [hnxt] at hstep
    unfold create_chunks
    rw [if_neg hne]
    rw [chunkLoopF_cont (byteLen ft + 1) (byteLen ft) ft url 0 0 _ (byteLen ft) 1 hstep rfl]
    rw [chunkLoopF_stop _ _ _ _ _ (le_trans (le_refl _) (advance_ge ft (byteLen ft)))]
    simp

/-- C3 witness: the two-character text `"hi"` (length 2 ≤ 200) yields exactly
the single whole-text chunk, and the empty text yields none. -/
theorem claim_C3_witness :
    create_chunks [] "u" = [] ∧
    create_chunks ['h', 'i'] "u" =
      [⟨"u" ++ "#chunk" ++ toString 0, trimChars ['h', 'i'], 0, byteLen ['h', 'i'], none⟩] :=
  ⟨(claim_C3_amended ['h', 'i'] "u").1,
   (claim_C3_amended ['h', 'i'] "u").2 (by decide) (by decide) (by decide)⟩

/-- C4 counterexample: the 2200-byte text with no sentence terminator yields
four chunks, not exactly three: the overlap rule appends a trailing chunk at
2000. -/
theorem claim_C4_counterexample :
    byteLen exC4text = 2200 ∧ '.' ∉ exC4text ∧
    (create_chunks exC4text "u").length = 4 ∧ (create_chunks exC4text "u").length ≠ 3 := by
  refine ⟨byteLen_exC4, by rw [exC4text]; exact rep_a_nodot 2200, ?_, ?_⟩ <;>
    rw [create_chunks_exC4] <;> simp

/-- C4 (amended): a 2200-byte text with chunk size 1000, overlap 200 and no
sentence terminator yields 4 chunks with char_start 0, 800, 1600 and 2000,
and the last chunk's char_end equals 2200. -/
theorem claim_C4_amended :
    byteLen exC4text = 2200 ∧
    (create_chunks exC4text "u").map TextChunk.char_start = [0, 800, 1600, 2000] ∧
    (create_chunks exC4text "u").map TextChunk.char_end = [1000, 1800, 2200, 2200] := by
  refine ⟨byteLen_exC4, ?_, ?_⟩ <;> rw [create_chunks_exC4] <;> simp

/-- C5 (amended): every emitted chunk's char_start and char_end are char
boundaries of the text, char_end > char_start, chunks are emitted in strictly
increasing char_start order, and — for every non-empty text whose final
character is not whitespace — the final chunk's char_end equals the text
length.  (A text with trailing whitespace can end short: the trailing window
trims to empty and is discarded, see the counterexample.) -/
theorem claim_C5_amended : ∀ (ft : List Char) (url : String),
    (∀ c ∈ create_chunks ft url,
      isCharBoundary ft c.char_start = true ∧ isCharBoundary ft c.char_end = true ∧
      c.char_start < c.char_end ∧ c.char_end ≤ byteLen ft) ∧
    (create_chunks ft url).Pairwise (fun a b => a.char_start < b.char_start) ∧
    (ft ≠ [] → (∀ c, ft.getLast? = some c → isRustWS c = false) →
      (create_chunks ft url).getLast?.map TextChunk.char_end = some (byteLen ft)) := by
  intro ft url
  by_cases hft : ft = []
  · subst hft
    refine ⟨?_, ?_, ?_⟩
    · intro c hc; simp [create_chunks] at hc
    · simp [create_chunks]
    · intro h; exact absurd rfl h
  · unfold create_chunks
    rw [if_neg hft]
    have hsafe := chunkLoopF_safe (byteLen ft + 1) ft url 0 0 (by omega)
    refine ⟨?_, hsafe.2, ?_⟩
    · intro c hc
      obtain ⟨a1, a2, a3, a4, _⟩ := hsafe.1 c hc
      exact ⟨a1, a2, a3, a4⟩
    · intro _ hws
      apply chunkLoopF_lastEnd ft url hws (byteLen ft + 1) 0 0 (by omega) (by omega)
      rw [advance_of_boundary ft 0 (isCharBoundary_zero ft)]
      exact byteLen_pos ft hft

/-- C5 counterexample: a non-empty 1200-byte text (300 letters then 900
spaces) emits exactly one chunk, ending at byte 1000 — not at the text length
1200 — because the trailing windows trim to empty and are discarded. -/
theorem claim_C5_counterexample :
    exC5text ≠ [] ∧ byteLen exC5text = 1200 ∧
    (create_chunks exC5text "u").map TextChunk.char_end = [1000] ∧
    (create_chunks exC5text "u").getLast?.map TextChunk.char_end ≠
      some (byteLen exC5text) := by
  rw [create_chunks_exC5, byteLen_exC5]
  refine ⟨by rw [exC5text]; simp, rfl, by simp, by simp⟩

/-- C5 witness: on the concrete text `"hi"` the final chunk ends exactly at
the text length. -/
theorem claim_C5_witness :
    (create_chunks ['h', 'i'] "u").getLast?.map TextChunk.char_end =
      some (byteLen ['h', 'i']) :=
  (claim_C5_amended ['h', 'i'] "u").2.2 (by decide)
    (by intro c hc
        have h2 : c = 'i' := by
          have : (['h', 'i'] : List Char).getLast? = some 'i' := rfl
          rw [this] at hc
          exact (Option.some.inj hc).symm
        rw [h2]
        decide)

/-! ### Crawl orchestrator lemmas -/

lemma crawlF_zero (f : String → Except String PageData) (g : String → String → Option String)
    (md : Nat) (url : String) (depth : Nat) (s : CrawlState) :
    crawlF f g md 0 url depth s = s := rfl

lemma crawlF_succ (f : String → Except String PageData) (g : String → String → Option String)
    (md fuel : Nat) (url : String) (depth : Nat) (s : CrawlState) :
    crawlF f g md (fuel + 1) url depth s =
      if md ≤ depth ∨ url ∈ s.visited then s
      else
        match f url with
        | Except.ok page =>
          if goodPage page then
            crawlLinksF f g md fuel url (depth + 1) page.links
              { visited := url :: s.visited, pages := s.pages ++ [page],
                fetchLog := s.fetchLog ++ [url] }
          else
            { visited := url :: s.visited, pages := s.pages, fetchLog := s.fetchLog ++ [url] }
        | Except.error e =>
          { visited := url :: s.visited, pages := s.pages ++ [failedPage url depth e],
            fetchLog := s.fetchLog ++ [url] } := rfl

lemma crawlLinksF_nil (f : String → Except String PageData)
    (g : String → String → Option String) (md fuel : Nat) (base : String) (depth : Nat)
    (s : CrawlState) : crawlLinksF f g md fuel base depth [] s = s := rfl

lemma crawlLinksF_cons (f : String → Except String PageData)
    (g : String → String → Option String) (md fuel : Nat) (base : String) (depth : Nat)
    (l : LinkData) (ls : List LinkData) (s : CrawlState) :
    crawlLinksF f g md fuel base depth (l :: ls) s =
      crawlLinksF f g md fuel base depth ls
        (if l.link_type = LinkType.Internal then
          match g base l.href with
          | some fu => if fu ∈ s.visited then s else crawlF f g md fuel fu depth s
          | none => s
        else s) := rfl

lemma crawlF_visited_noop (f : String → Except String PageData)
    (g : String → String → Option String) (md fuel : Nat) (url : String) (depth : Nat)
    (s : CrawlState) (h : url ∈ s.visited) : crawlF f g md fuel url depth s = s := by
  cases fuel with
  | zero => rfl
  | succ n => rw [crawlF_succ, if_pos (Or.inr h)]

lemma crawlLinks_mono_of (f : String → Except String PageData)
    (g : String → String → Option String) (md fuel : Nat)
    (H : ∀ url depth s, ∀ v ∈ s.visited, v ∈ (crawlF f g md fuel url depth s).visited) :
    ∀ (links : List LinkData) (base : String) (depth : Nat) (s : CrawlState),
      ∀ v ∈ s.visited, v ∈ (crawlLinksF f g md fuel base depth links s).visited := by
  intro links
  induction links with
  | nil =>
    intro base depth s v hv
    rw [crawlLinksF_nil]; exact hv
  | cons l ls ih =>
    intro base depth s v hv
    rw [crawlLinksF_cons]
    apply ih
    split
    · cases hg : g base l.href with
      | some fu =>
        simp only
        split
        · exact hv
        · exact H fu depth s v hv
      | none => exact hv
    · exact hv

lemma crawlF_mono : ∀ (fuel : Nat) (f : String → Except String PageData)
    (g : String → String → Option String) (md : Nat) (url : String) (depth : Nat)
    (s : CrawlState), ∀ v ∈ s.visited, v ∈ (crawlF f g md fuel url depth s).visited := by
  intro fuel
  induction fuel with
  | zero => intro f g md url depth s v hv; rw [crawlF_zero]; exact hv
  | succ n ih =>
    intro f g md url depth s v hv
    rw [crawlF_succ]
    split
    · exact hv
    · cases hf : f url with
      | ok page =>
        simp only
        split
        · exact crawlLinks_mono_of f g md n (ih f g md) page.links url (depth + 1) _
            v (by simp [hv])
        · simp [hv]
      | error e => simp [hv]

lemma crawlLinks_pages_of (f : String → Except String PageData)
    (g : String → String → Option String) (md fuel : Nat)
    (H : ∀ url depth s, ∀ p ∈ (crawlF f g md fuel url depth s).pages,
      p ∈ s.pages ∨ goodPage p ∨ p.title = "Failed to crawl") :
    ∀ (links : List LinkData) (base : String) (depth : Nat) (s : CrawlState),
      ∀ p ∈ (crawlLinksF f g md fuel base depth links s).pages,
        p ∈ s.pages ∨ goodPage p ∨ p.title = "Failed to crawl" := by
  intro links
  induction links with
  | nil =>
    intro base depth s p hp
    rw [crawlLinksF_nil] at hp
    exact Or.inl hp
  | cons l ls ih =>
    intro base depth s p hp
    rw [crawlLinksF_cons] at hp
    have step := ih base depth _ p hp
    rcases step with h1 | h1
    · -- p in the pages of the one-link state; analyze the branch
      revert h1
      split
      · cases hg : g base l.href with
        | some fu =>
          simp only
          split
          · exact fun h1 => Or.inl h1
          · exact fun h1 => H fu depth s p h1
        | none => exact fun h1 => Or.inl h1
      · exact fun h1 => Or.inl h1
    · exact Or.inr h1

lemma crawlF_pages : ∀ (fuel : Nat) (f : String → Except String PageData)
    (g : String → String → Option String) (md : Nat) (url : String) (depth : Nat)
    (s : CrawlState), ∀ p ∈ (crawlF f g md fuel url depth s).pages,
      p ∈ s.pages ∨ goodPage p ∨ p.title = "Failed to crawl" := by
  intro fuel
  induction fuel with
  | zero =>
    intro f g md url depth s p hp
    rw [crawlF_zero] at hp
    exact Or.inl hp
  | succ n ih =>
    intro f g md url depth s p hp
    rw [crawlF_succ] at hp
    revert hp
    split
    · exact fun hp => Or.inl hp
    · cases hf : f url with
      | ok page =>
        simp only
        split
        · next hgood =>
          intro hp
          have := crawlLinks_pages_of f g md n (ih f g md) page.links url (depth + 1) _ p hp
          rcases this with h1 | h1
          · simp only [List.mem_append, List.mem_singleton] at h1
            rcases h1 with h2 | h2
            · exact Or.inl h2
            · exact Or.inr (Or.inl (h2 ▸ hgood))
          · exact Or.inr h1
        · exact fun hp => Or.inl hp
      | error e =>
        intro hp
        simp only [List.mem_append, List.mem_singleton] at hp
        rcases hp with h1 | h1
        · exact Or.inl h1
        · exact Or.inr (Or.inr (by rw [h1]; rfl))

lemma crawlLinks_log_of (f : String → Except String PageData)
    (g : String → String → Option String) (md fuel : Nat)
    (H : ∀ url depth s, s.fetchLog.Nodup → (∀ v ∈ s.fetchLog, v ∈ s.visited) →
      (crawlF f g md fuel url depth s).fetchLog.Nodup ∧
      ∀ v ∈ (crawlF f g md fuel url depth s).fetchLog,
        v ∈ (crawlF f g md fuel url depth s).visited) :
    ∀ (links : List LinkData) (base : String) (depth : Nat) (s : CrawlState),
      s.fetchLog.Nodup → (∀ v ∈ s.fetchLog, v ∈ s.visited) →
      (crawlLinksF f g md fuel base depth links s).fetchLog.Nodup ∧
      ∀ v ∈ (crawlLinksF f g md fuel base depth links s).fetchLog,
        v ∈ (crawlLinksF f g md fuel base depth links s).visited := by
  intro links
  induction links with
  | nil =>
    intro base depth s h1 h2
    rw [crawlLinksF_nil]
    exact ⟨h1, h2⟩
  | cons l ls ih =>
    intro base depth s h1 h2
    rw [crawlLinksF_cons]
    apply ih
    all_goals
      first
      | (split
         · cases hg : g base l.href with
           | some fu =>
             simp only
             split
             · assumption
             · exact (H fu depth s h1 h2).1
           | none => assumption
         · assumption)
      | skip
    · split
      · cases hg : g base l.href with
        | some fu =>
          simp only
          split
          · exact h2
          · exact (H fu depth s h1 h2).2
        | none => exact h2
      · exact h2

lemma crawlF_log : ∀ (fuel : Nat) (f : String → Except String PageData)
    (g : String → String → Option String) (md : Nat) (url : String) (depth : Nat)
    (s : CrawlState), s.fetchLog.Nodup → (∀ v ∈ s.fetchLog, v ∈ s.visited) →
    (crawlF f g md fuel url depth s).fetchLog.Nodup ∧
    ∀ v ∈ (crawlF f g md fuel url depth s).fetchLog,
      v ∈ (crawlF f g md fuel url depth s).visited := by
  intro fuel
  induction fuel with
  | zero =>
    intro f g md url depth s h1 h2
    rw [crawlF_zero]
    exact ⟨h1, h2⟩
  | succ n ih =>
    intro f g md url depth s h1 h2
    rw [crawlF_succ]
    split
    · exact ⟨h1, h2⟩
    · next hguard =>
      have hnv : url ∉ s.visited := fun hv => hguard (Or.inr hv)
      have hlog1 : (s.fetchLog ++ [url]).Nodup := by
        rw [List.nodup_append]
        refine ⟨h1, List.nodup_singleton url, ?_⟩
        intro a ha hb
        rw [List.mem_singleton] at hb
        exact hnv (hb ▸ h2 a ha)
      have hlog2 : ∀ v ∈ s.fetchLog ++ [url], v ∈ url :: s.visited := by
        intro v hv
        rcases List.mem_append.mp hv with h3 | h3
        · exact List.mem_cons_of_mem url (h2 v h3)
        · rw [List.mem_singleton] at h3
          rw [h3]
          exact List.mem_cons_self url s.visited
      cases hf : f url with
      | ok page =>
        simp only
        split
        · exact crawlLinks_log_of f g md n (ih f g md) page.links url (depth + 1) _ hlog1 hlog2
        · exact ⟨hlog1, hlog2⟩
      | error e => exact ⟨hlog1, hlog2⟩

lemma crawlLinks_canon_of (f : String → Except String PageData)
    (g : String → String → Option String) (md fuel : Nat)
    (H : ∀ url depth s, md - depth ≤ fuel →
      crawlF f g md fuel url depth s = crawlF f g md (md - depth) url depth s) :
    ∀ (links : List LinkData) (base : String) (depth : Nat) (s : CrawlState),
      md - depth ≤ fuel →
      crawlLinksF f g md fuel base depth links s =
        crawlLinksF f g md (md - depth) base depth links s := by
  intro links
  induction links with
  | nil => intro base depth s h; rw [crawlLinksF_nil, crawlLinksF_nil]
  | cons l ls ih =>
    intro base depth s h
    rw [crawlLinksF_cons, crawlLinksF_cons]
    have hstate :
        (if l.link_type = LinkType.Internal then
          match g base l.href with
          | some fu => if fu ∈ s.visited then s else crawlF f g md fuel fu depth s
          | none => s
        else s) =
        (if l.link_type = LinkType.Internal then
          match g base l.href with
          | some fu => if fu ∈ s.visited then s else crawlF f g md (md - depth) fu depth s
          | none => s
        else s) := by
      split
      · cases hg : g base l.href with
        | some fu =>
          simp only
          split
          · rfl
          · exact H fu depth s h
        | none => rfl
      · rfl
    rw [hstate]
    exact ih base depth _ h

lemma crawlF_canon : ∀ (fuel : Nat) (f : String → Except String PageData)
    (g : String → String → Option String) (md : Nat) (url : String) (depth : Nat)
    (s : CrawlState), md - depth ≤ fuel →
    crawlF f g md fuel url depth s = crawlF f g md (md - depth) url depth s := by
  intro fuel
  induction fuel with
  | zero =>
    intro f g md url depth s h
    have h0 : md - depth = 0 := by omega
    rw [h0]
  | succ n ih =>
    intro f g md url depth s h
    by_cases hd : md ≤ depth ∨ url ∈ s.visited
    · rw [crawlF_succ, if_pos hd]
      cases hk : md - depth with
      | zero => rfl
      | succ k => rw [crawlF_succ, if_pos hd]
    · have hdep : depth < md := by
        rcases Nat.lt_or_ge depth md with h1 | h1
        · exact h1
        · exact absurd (Or.inl h1) hd
      obtain ⟨k, hk⟩ : ∃ k, md - depth = k + 1 := ⟨md - depth - 1, by omega⟩
      have hk2 : md - (depth + 1) = k := by omega
      rw [hk, crawlF_succ, crawlF_succ, if_neg hd, if_neg hd]
      cases hf : f url with
      | ok page =>
        simp only
        split
        · rw [crawlLinks_canon_of f g md n (fun u d t ht => ih f g md u d t ht)
            page.links url (depth + 1) _ (by omega), hk2]
        · rfl
      | error e => rfl

/-- C1 counterexample: when a fetch fails, the crawl appends a placeholder
page whose trimmed full_text, paragraphs and headings are all empty — so a
page violating the content disjunction IS appended to the result list. -/
theorem claim_C1_counterexample :
    (crawlF exFetchFail exFilter 1 1 "https://d.org/" 0 emptyState).pages.map
      (fun p => (rustTrim p.content.full_text, p.content.paragraphs, p.content.headings,
                 p.title)) =
      [("", [], [], "Failed to crawl")] := by decide

/-- C1 (amended): every page appended to the crawl result list either
satisfies the content disjunction — non-empty trimmed full_text, or non-empty
paragraphs, or non-empty headings — or is a fetch-failure placeholder titled
"Failed to crawl" (with empty content); only the error branch appends pages
violating the disjunction. -/
theorem claim_C1_amended : ∀ (f : String → Except String PageData)
    (g : String → String → Option String) (md fuel : Nat) (url : String) (depth : Nat)
    (s : CrawlState), ∀ p ∈ (crawlF f g md fuel url depth s).pages,
      p ∈ s.pages ∨ goodPage p ∨ p.title = "Failed to crawl" :=
  fun f g md fuel url depth s => crawlF_pages fuel f g md url depth s

/-- C1 witness: the theorem applied to a concrete failing crawl. -/
theorem claim_C1_witness :
    failedPage "https://d.org/" 0 "boom" ∈ emptyState.pages ∨
    goodPage (failedPage "https://d.org/" 0 "boom") ∨
    (failedPage "https://d.org/" 0 "boom").title = "Failed to crawl" :=
  claim_C1_amended exFetchFail exFilter 1 1 "https://d.org/" 0 emptyState
    (failedPage "https://d.org/" 0 "boom") (by decide)

/-- C2: visited-set membership is monotonic through a crawl (once in, never
removed); a call on an already-visited URL returns the state unchanged — no
fetch, no record; and starting from a state whose fetch log is duplicate-free
and covered by the visited set (in particular the initial empty state), the
fetch log stays duplicate-free, so every URL is fetched at most once per
run. -/
theorem claim_C2 : ∀ (f : String → Except String PageData)
    (g : String → String → Option String) (md fuel : Nat) (url : String) (depth : Nat)
    (s : CrawlState),
    (∀ v ∈ s.visited, v ∈ (crawlF f g md fuel url depth s).visited) ∧
    (url ∈ s.visited → crawlF f g md fuel url depth s = s) ∧
    (s.fetchLog.Nodup → (∀ v ∈ s.fetchLog, v ∈ s.visited) →
      (crawlF f g md fuel url depth s).fetchLog.Nodup ∧
      ∀ u, (crawlF f g md fuel url depth s).fetchLog.count u ≤ 1) := by
  intro f g md fuel url depth s
  refine ⟨crawlF_mono fuel f g md url depth s, crawlF_visited_noop f g md fuel url depth s, ?_⟩
  intro h1 h2
  have h3 := crawlF_log fuel f g md url depth s h1 h2
  exact ⟨h3.1, fun u => List.nodup_iff_count_le_one.mp h3.1 u⟩

/-- C2 witness: a concrete two-level crawl fetches each URL once, and calling
into an already-visited URL is a no-op. -/
theorem claim_C2_witness :
    (crawlF exFetchOk exFilter 2 2 "https://d.org/" 0 emptyState).fetchLog.Nodup ∧
    crawlF exFetchOk exFilter 2 2 "https://d.org/" 0 ⟨["https://d.org/"], [], []⟩ =
      ⟨["https://d.org/"], [], []⟩ :=
  ⟨((claim_C2 exFetchOk exFilter 2 2 "https://d.org/" 0 emptyState).2.2
      (by simp [emptyState]) (by simp [emptyState])).1,
   (claim_C2 exFetchOk exFilter 2 2 "https://d.org/" 0 ⟨["https://d.org/"], [], []⟩).2.1
      (by simp)⟩

/-- C9 counterexample: the placeholder's description is `"Error: boom"` when
the fetch fails with message `"boom"` — the code prefixes `"Error: "`, so the
description is not equal to the error message itself. -/
theorem claim_C9_counterexample :
    (crawlF exFetchFail exFilter 1 1 "https://d.org/" 0 emptyState).pages.map
      (fun p => p.metadata.description) = [some "Error: boom"] ∧
    some "Error: boom" ≠ some "boom" :=
  ⟨by decide, by decide⟩

/-- C9 (amended): when the fetch of an unvisited URL below the depth bound
fails with message `e`, the orchestrator does not retry — it performs exactly
one fetch and appends exactly one placeholder page (title "Failed to crawl",
empty full_text/headings/paragraphs/lists/chunks, description `"Error: " ++
e`, empty links), expands no links, and returns normally so the crawl
continues. -/
theorem claim_C9_amended : ∀ (f : String → Except String PageData)
    (g : String → String → Option String) (md fuel : Nat) (url : String) (depth : Nat)
    (s : CrawlState) (e : String),
    f url = Except.error e → depth < md → url ∉ s.visited →
    crawlF f g md (fuel + 1) url depth s =
      { visited := url :: s.visited, pages := s.pages ++ [failedPage url depth e],
        fetchLog := s.fetchLog ++ [url] } := by
  intro f g md fuel url depth s e hf hd hv
  have hg : ¬(md ≤ depth ∨ url ∈ s.visited) := by
    rintro (h | h)
    · omega
    · exact hv h
  rw [crawlF_succ, if_neg hg, hf]

/-- C9 witness: the amended theorem applied to a concrete failing fetch. -/
theorem claim_C9_witness :
    crawlF exFetchFail exFilter 1 1 "https://d.org/" 0 emptyState =
      { visited := ["https://d.org/"],
        pages := [failedPage "https://d.org/" 0 "boom"],
        fetchLog := ["https://d.org/"] } :=
  claim_C9_amended exFetchFail exFilter 1 0 "https://d.org/" 0 emptyState "boom"
    rfl (by norm_num) (by simp [emptyState])

/-- C10: the recursive crawl terminates within the depth bound for every
fetcher and URL-filter behavior: a call at depth ≥ max_depth returns the
state unchanged whatever the fuel, and any two fuel bounds of at least
`max_depth - depth` compute the same result — fuel `max_depth - depth`
suffices, every recursive call passes `depth + 1`, so the recursion depth is
bounded by `max_depth` and the traversal is finite. -/
theorem claim_C10 : ∀ (f : String → Except String PageData)
    (g : String → String → Option String) (md : Nat) (url : String) (depth : Nat)
    (s : CrawlState),
    (md ≤ depth → ∀ fuel, crawlF f g md fuel url depth s = s) ∧
    (∀ fuel1 fuel2, md - depth ≤ fuel1 → md - depth ≤ fuel2 →
      crawlF f g md fuel1 url depth s = crawlF f g md fuel2 url depth s) := by
  intro f g md url depth s
  constructor
  · intro h fuel
    cases fuel with
    | zero => rfl
    | succ n => rw [crawlF_succ, if_pos (Or.inl h)]
  · intro fuel1 fuel2 h1 h2
    rw [crawlF_canon fuel1 f g md url depth s h1, crawlF_canon fuel2 f g md url depth s h2]

/-- C10 witness: a depth-exceeded call is a no-op, and two ample fuels agree
on a concrete crawl. -/
theorem claim_C10_witness :
    crawlF exFetchOk exFilter 2 5 "https://d.org/" 3 emptyState = emptyState ∧
    crawlF exFetchOk exFilter 2 7 "https://d.org/" 0 emptyState =
      crawlF exFetchOk exFilter 2 9 "https://d.org/" 0 emptyState :=
  ⟨(claim_C10 exFetchOk exFilter 2 "https://d.org/" 3 emptyState).1 (by norm_num) 5,
   (claim_C10 exFetchOk exFilter 2 "https://d.org/" 0 emptyState).2 7 9 (by norm_num)
     (by norm_num)⟩

/-! ### Heading extraction lemmas -/

lemma stepHeading_not_kept (level : Nat) (st : Option String × Option String × List Heading)
    (e : HeadingElem) (h : ¬ keptHeading e) : stepHeading level st e = st := by
  simp only [stepHeading]
  by_cases h1 : e.skippable = true
  · rw [if_pos h1]
  · rw [if_neg h1]
    by_cases h2 : rustTrim e.text = "" ∨
        (commonBoilerplateHeadings.any
          fun s => containsL (lowerStr (rustTrim e.text)).data s.data) = true
    · rw [if_pos h2]
    · rw [if_neg h2]
      by_cases h3 : rustTrim e.text ≠ "" ∧ byteLen (rustTrim e.text).data / 2 < e.linkTextLen ∧
          countWords (rustTrim e.text).data < 5
      · rw [if_pos h3]
      · exact absurd ⟨by simpa using h1, h2, h3⟩ h

lemma stepHeading_kept_proj (level : Nat) (st : Option String × Option String × List Heading)
    (e : HeadingElem) (h : keptHeading e) :
    stepHeading level st e =
      (if level = 1 then some (rustTrim e.text) else st.1,
       if level = 2 then some (rustTrim e.text) else st.2.1,
       st.2.2 ++ [⟨level, rustTrim e.text,
         if level = 2 then st.1 else if 3 ≤ level ∧ level ≤ 6 then st.2.1 else none⟩]) := by
  obtain ⟨h1, h2, h3⟩ := h
  simp only [stepHeading]
  rw [if_neg (by simp [h1]), if_neg h2, if_neg h3]
  by_cases hl1 : level = 1
  · subst hl1; simp
  · by_cases hl2 : level = 2
    · subst hl2; simp
    · simp [hl1, hl2]

lemma stepHeading_fst (level : Nat) (st : Option String × Option String × List Heading)
    (e : HeadingElem) (h : level ≠ 1) : (stepHeading level st e).1 = st.1 := by
  by_cases hk : keptHeading e
  · rw [stepHeading_kept_proj level st e hk]
    simp [h]
  · rw [stepHeading_not_kept level st e hk]

lemma stepHeading_snd (level : Nat) (st : Option String × Option String × List Heading)
    (e : HeadingElem) (h : level ≠ 2) : (stepHeading level st e).2.1 = st.2.1 := by
  by_cases hk : keptHeading e
  · rw [stepHeading_kept_proj level st e hk]
    simp [h]
  · rw [stepHeading_not_kept level st e hk]

lemma stepHeading_acc (level : Nat) (st : Option String × Option String × List Heading)
    (e : HeadingElem) :
    ∃ new, (stepHeading level st e).2.2 = st.2.2 ++ new ∧
      ∀ hh ∈ new, hh.level = level ∧
        hh.parent_heading = (if level = 2 then st.1
          else if 3 ≤ level ∧ level ≤ 6 then st.2.1 else none) := by
  by_cases hk : keptHeading e
  · refine ⟨[⟨level, rustTrim e.text,
      if level = 2 then st.1 else if 3 ≤ level ∧ level ≤ 6 then st.2.1 else none⟩], ?_, ?_⟩
    · rw [stepHeading_kept_proj level st e hk]
    · intro hh hm
      rw [List.mem_singleton] at hm
      rw [hm]
      exact ⟨rfl, rfl⟩
  · exact ⟨[], by rw [stepHeading_not_kept level st e hk]; simp, by simp⟩

lemma foldl_heading_fst (level : Nat) (h : level ≠ 1) :
    ∀ (l : List HeadingElem) (st : Option String × Option String × List Heading),
      (l.foldl (stepHeading level) st).1 = st.1 := by
  intro l
  induction l with
  | nil => intro st; rfl
  | cons e t ih =>
    intro st
    rw [List.foldl_cons, ih, stepHeading_fst level st e h]

lemma foldl_heading_snd (level : Nat) (h : level ≠ 2) :
    ∀ (l : List HeadingElem) (st : Option String × Option String × List Heading),
      (l.foldl (stepHeading level) st).2.1 = st.2.1 := by
  intro l
  induction l with
  | nil => intro st; rfl
  | cons e t ih =>
    intro st
    rw [List.foldl_cons, ih, stepHeading_snd level st e h]

lemma foldl_heading_acc (level : Nat) :
    ∀ (l : List HeadingElem) (st : Option String × Option String × List Heading),
      ∃ new, (l.foldl (stepHeading level) st).2.2 = st.2.2 ++ new ∧
        ∀ hh ∈ new, hh.level = level ∧
          hh.parent_heading = (if level = 2 then st.1
            else if 3 ≤ level ∧ level ≤ 6 then st.2.1 else none) := by
  intro l
  induction l with
  | nil => exact fun st => ⟨[], by simp, by simp⟩
  | cons e t ih =>
    intro st
    rw [List.foldl_cons]
    obtain ⟨new, hnew, hpar⟩ := ih (stepHeading level st e)
    obtain ⟨new0, hnew0, hpar0⟩ := stepHeading_acc level st e
    refine ⟨new0 ++ new, by rw [hnew, hnew0, List.append_assoc], ?_⟩
    intro hh hm
    rcases List.mem_append.mp hm with h1 | h1
    · exact hpar0 hh h1
    · obtain ⟨ha, hb⟩ := hpar hh h1
      refine ⟨ha, ?_⟩
      rw [hb]
      by_cases h2 : level = 2
      · rw [if_pos h2, if_pos h2, stepHeading_fst level st e (by omega)]
      · by_cases h3 : 3 ≤ level ∧ level ≤ 6
        · rw [if_neg h2, if_neg h2, if_pos h3, if_pos h3, stepHeading_snd level st e h2]
        · rw [if_neg h2, if_neg h2, if_neg h3, if_neg h3]

lemma foldl_heading_h1 :
    ∀ (l : List HeadingElem) (st : Option String × Option String × List Heading),
      (l.foldl (stepHeading 1) st).1 =
        match (l.filter (fun e => decide (keptHeading e))).getLast? with
        | some e => some (rustTrim e.text)
        | none => st.1 := by
  intro l
  induction l using List.reverseRecOn with
  | nil => intro st; rfl
  | append_singleton t e ih =>
    intro st
    rw [List.foldl_append, List.foldl_cons, List.foldl_nil, List.filter_append]
    by_cases hk : keptHeading e
    · rw [stepHeading_kept_proj 1 _ e hk]
      simp [hk]
    · rw [stepHeading_not_kept 1 _ e hk]
      have hf : List.filter (fun e => decide (keptHeading e)) [e] = [] := by
        simp [hk]
      rw [hf, List.append_nil]
      exact ih st

lemma foldl_heading_h2 :
    ∀ (l : List HeadingElem) (st : Option String × Option String × List Heading),
      (l.foldl (stepHeading 2) st).2.1 =
        match (l.filter (fun e => decide (keptHeading e))).getLast? with
        | some e => some (rustTrim e.text)
        | none => st.2.1 := by
  intro l
  induction l using List.reverseRecOn with
  | nil => intro st; rfl
  | append_singleton t e ih =>
    intro st
    rw [List.foldl_append, List.foldl_cons, List.foldl_nil, List.filter_append]
    by_cases hk : keptHeading e
    · rw [stepHeading_kept_proj 2 _ e hk]
      simp [hk]
    · rw [stepHeading_not_kept 2 _ e hk]
      have hf : List.filter (fun e => decide (keptHeading e)) [e] = [] := by
        simp [hk]
      rw [hf, List.append_nil]
      exact ih st

lemma filter_filter_comm (p q : HeadingElem → Bool) (l : List HeadingElem) :
    (l.filter p).filter q = l.filter (fun a => p a && q a) := by
  rw [List.filter_filter]
  apply List.filter_congr
  intro a _
  exact Bool.and_comm (q a) (p a)

lemma lastKept_match (elems : List HeadingElem) (lvl : Nat) :
    lastKept elems lvl =
      match (elems.filter (fun e => e.level == lvl && decide (keptHeading e))).getLast? with
      | some e => some (rustTrim e.text)
      | none => none := by
  unfold lastKept
  cases h : (elems.filter (fun e => e.level == lvl && decide (keptHeading e))).getLast? <;>
    simp [h]

lemma processLevel_fst (elems : List HeadingElem) (lvl : Nat)
    (st : Option String × Option String × List Heading) (h : lvl ≠ 1) :
    (processLevel elems lvl st).1 = st.1 :=
  foldl_heading_fst lvl h _ st

lemma processLevel_snd (elems : List HeadingElem) (lvl : Nat)
    (st : Option String × Option String × List Heading) (h : lvl ≠ 2) :
    (processLevel elems lvl st).2.1 = st.2.1 :=
  foldl_heading_snd lvl h _ st

lemma processLevel_acc (elems : List HeadingElem) (lvl : Nat)
    (st : Option String × Option String × List Heading) :
    ∃ new, (processLevel elems lvl st).2.2 = st.2.2 ++ new ∧
      ∀ hh ∈ new, hh.level = lvl ∧
        hh.parent_heading = (if lvl = 2 then st.1
          else if 3 ≤ lvl ∧ lvl ≤ 6 then st.2.1 else none) :=
  foldl_heading_acc lvl _ st

lemma processLevel_h1 (elems : List HeadingElem)
    (st : Option String × Option String × List Heading) :
    (processLevel elems 1 st).1 =
      match (elems.filter (fun e => e.level == 1 && decide (keptHeading e))).getLast? with
      | some e => some (rustTrim e.text)
      | none => st.1 := by
  have h := foldl_heading_h1 (elems.filter (fun e => e.level == 1)) st
  rw [filter_filter_comm] at h
  exact h

lemma processLevel_h2 (elems : List HeadingElem)
    (st : Option String × Option String × List Heading) :
    (processLevel elems 2 st).2.1 =
      match (elems.filter (fun e => e.level == 2 && decide (keptHeading e))).getLast? with
      | some e => some (rustTrim e.text)
      | none => st.2.1 := by
  have h := foldl_heading_h2 (elems.filter (fun e => e.level == 2)) st
  rw [filter_filter_comm] at h
  exact h

lemma extract_headings_eq (elems : List HeadingElem) :
    extract_headings elems =
      (processLevel elems 6 (processLevel elems 5 (processLevel elems 4 (processLevel elems 3
        (processLevel elems 2 (processLevel elems 1 (none, none, []))))))).2.2 := rfl

/-- C6 (amended): because extraction iterates the heading levels 1..6 in
turn — processing every `h1` before any `h2`, and every `h2` before the
levels 3..6 — the `parent_heading` of every kept level-2 heading is the text
of the LAST kept level-1 heading of the whole page (absent if none is kept),
not the nearest preceding one; for kept headings of levels 3-6 it is the text
of the last kept level-2 heading of the page; level-1 headings have no
parent.  When the page has a single `<h1>Open Days</h1>`, "last" and
"nearest preceding" coincide, so an `<h2>` after it still receives
`parent_heading = "Open Days"` (see the witness). -/
theorem claim_C6_amended : ∀ (elems : List HeadingElem) (hh : Heading),
    hh ∈ extract_headings elems →
    (hh.level = 1 → hh.parent_heading = none) ∧
    (hh.level = 2 → hh.parent_heading = lastKept elems 1) ∧
    (3 ≤ hh.level ∧ hh.level ≤ 6 → hh.parent_heading = lastKept elems 2) := by
  intro elems hh hm
  rw [extract_headings_eq] at hm
  have hA1 : (processLevel elems 1 (none, none, [])).1 = lastKept elems 1 := by
    cases hx : (elems.filter (fun e => e.level == 1 && decide (keptHeading e))).getLast? <;>
      simp [processLevel_h1, lastKept_match, hx]
  have hB1 : (processLevel elems 1 (none, none, [])).2.1 = (none : Option String) :=
    processLevel_snd elems 1 _ (by norm_num)
  have hB2 : (processLevel elems 2 (processLevel elems 1 (none, none, []))).2.1 =
      lastKept elems 2 := by
    have h2 := processLevel_h2 elems (processLevel elems 1 (none, none, []))
    rw [hB1] at h2
    cases hx : (elems.filter (fun e => e.level == 2 && decide (keptHeading e))).getLast? <;>
      simp [h2, lastKept_match, hx]
  have hB3 : (processLevel elems 3 (processLevel elems 2 (processLevel elems 1
      (none, none, [])))).2.1 = lastKept elems 2 := by
    rw [processLevel_snd elems 3 _ (by norm_num), hB2]
  have hB4 : (processLevel elems 4 (processLevel elems 3 (processLevel elems 2
      (processLevel elems 1 (none, none, []))))).2.1 = lastKept elems 2 := by
    rw [processLevel_snd elems 4 _ (by norm_num), hB3]
  have hB5 : (processLevel elems 5 (processLevel elems 4 (processLevel elems 3
      (processLevel elems 2 (processLevel elems 1 (none, none, [])))))).2.1 =
      lastKept elems 2 := by
    rw [processLevel_snd elems 5 _ (by norm_num), hB4]
  have hA2 : (processLevel elems 2 (processLevel elems 1 (none, none, []))).1 =
      lastKept elems 1 := by
    rw [processLevel_fst elems 2 _ (by norm_num), hA1]
  obtain ⟨n1, ha1, hp1⟩ := processLevel_acc elems 1 (none, none, [])
  obtain ⟨n2, ha2, hp2⟩ := processLevel_acc elems 2 (processLevel elems 1 (none, none, []))
  obtain ⟨n3, ha3, hp3⟩ := processLevel_acc elems 3 (processLevel elems 2 (processLevel elems 1
    (none, none, [])))
  obtain ⟨n4, ha4, hp4⟩ := processLevel_acc elems 4 (processLevel elems 3 (processLevel elems 2
    (processLevel elems 1 (none, none, []))))
  obtain ⟨n5, ha5, hp5⟩ := processLevel_acc elems 5 (processLevel elems 4 (processLevel elems 3
    (processLevel elems 2 (processLevel elems 1 (none, none, [])))))
  obtain ⟨n6, ha6, hp6⟩ := processLevel_acc elems 6 (processLevel elems 5 (processLevel elems 4
    (processLevel elems 3 (processLevel elems 2 (processLevel elems 1 (none, none, []))))))
  rw [ha6] at hm
  rcases List.mem_append.mp hm with hm | hmn
  case inr =>
    obtain ⟨hl, hp⟩ := hp6 hh hmn
    norm_num at hp
    rw [hB5] at hp
    exact ⟨fun hc => by omega, fun hc => by omega, fun _ => hp⟩
  rw [ha5] at hm
  rcases List.mem_append.mp hm with hm | hmn
  case inr =>
    obtain ⟨hl, hp⟩ := hp5 hh hmn
    norm_num at hp
    rw [hB4] at hp
    exact ⟨fun hc => by omega, fun hc => by omega, fun _ => hp⟩
  rw [ha4] at hm
  rcases List.mem_append.mp hm with hm | hmn
  case inr =>
    obtain ⟨hl, hp⟩ := hp4 hh hmn
    norm_num at hp
    rw [hB3] at hp
    exact ⟨fun hc => by omega, fun hc => by omega, fun _ => hp⟩
  rw [ha3] at hm
  rcases List.mem_append.mp hm with hm | hmn
  case inr =>
    obtain ⟨hl, hp⟩ := hp3 hh hmn
    norm_num at hp
    rw [hB2] at hp
    exact ⟨fun hc => by omega, fun hc => by omega, fun _ => hp⟩
  rw [ha2] at hm
  rcases List.mem_append.mp hm with hm | hmn
  case inr =>
    obtain ⟨hl, hp⟩ := hp2 hh hmn
    norm_num at hp
    rw [hA1] at hp
    exact ⟨fun hc => by omega, fun _ => hp, fun hc => by omega⟩
  rw [ha1] at hm
  rcases List.mem_append.mp hm with hm | hmn
  case inr =>
    obtain ⟨hl, hp⟩ := hp1 hh hmn
    norm_num at hp
    exact ⟨fun _ => hp, fun hc => by omega, fun hc => by omega⟩
  simp at hm

/-- C6 counterexample: on a page `<h1>A</h1> <h2>X</h2> <h1>B</h1>` the
extracted `h2` "X" receives `parent_heading = some "B"` — the last kept `h1`
of the whole page — although the nearest level-1 heading preceding it in
document order is "A": extraction processes all `h1`s before any `h2`. -/
theorem claim_C6_counterexample :
    extract_headings exHeads =
      [⟨1, "A", none⟩, ⟨1, "B", none⟩, ⟨2, "X", some "B"⟩] ∧
    nearestPrecedingKept exHeads 1 1 = some "A" ∧
    (some "B" : Option String) ≠ some "A" :=
  ⟨by decide, by decide, by decide⟩

/-- C6 witness: with a single `<h1>Open Days</h1>` preceding the `<h2>`, the
theorem yields `parent_heading = lastKept _ 1 = some "Open Days"`. -/
theorem claim_C6_witness :
    (⟨2, "Visit us", some "Open Days"⟩ : Heading) ∈ extract_headings exOpenDays ∧
    (⟨2, "Visit us", some "Open Days"⟩ : Heading).parent_heading = lastKept exOpenDays 1 ∧
    lastKept exOpenDays 1 = some "Open Days" :=
  ⟨by decide,
   (claim_C6_amended exOpenDays ⟨2, "Visit us", some "Open Days"⟩ (by decide)).2.1 rfl,
   by decide⟩

/-! ### URL canonicalizer lemmas -/

lemma startsWithL_append_left (a b : List Char) : startsWithL (a ++ b) a = true := by
  induction a with
  | nil => cases b <;> rfl
  | cons c t ih => simp [startsWithL, ih]

lemma startsWithL_head (l p : List Char) (c : Char) (hp : p = [c])
    (h : startsWithL l p = true) : l.head? = some c := by
  subst hp
  cases l with
  | nil => simp [startsWithL] at h
  | cons d t =>
    simp only [startsWithL, Bool.and_eq_true, decide_eq_true_eq] at h
    rw [h.1]
    rfl

lemma splitAt_pred (p : Char → Bool) (a b : List Char) (ha : ∀ c ∈ a, p c = true)
    (hb : ∀ c, b.head? = some c → p c = false) :
    (a ++ b).takeWhile p = a ∧ (a ++ b).dropWhile p = b := by
  induction a with
  | nil =>
    cases b with
    | nil => simp
    | cons c t =>
      have hc := hb c rfl
      simp [List.takeWhile_cons, List.dropWhile_cons, hc]
  | cons c t ih =>
    have hc := ha c (by simp)
    have ih' := ih (fun x hx => ha x (by simp [hx]))
    simp only [List.cons_append, List.takeWhile_cons, List.dropWhile_cons, hc]
    simp [ih'.1, ih'.2]

lemma head?_append_left (l1 l2 : List Char) (h : l1 ≠ []) :
    (l1 ++ l2).head? = l1.head? := by
  cases l1 with
  | nil => exact absurd rfl h
  | cons c t => rfl

lemma splitOnAmp_ne_nil (l : List Char) : splitOnAmp l ≠ [] := by
  cases l with
  | nil => simp [splitOnAmp]
  | cons c t =>
    simp only [splitOnAmp]
    split
    · simp
    · cases h : splitOnAmp t <;> simp

lemma splitOnAmp_no_amp (l : List Char) : ∀ s ∈ splitOnAmp l, '&' ∉ s := by
  induction l with
  | nil =>
    intro s hs
    simp [splitOnAmp] at hs
    simp [hs]
  | cons c t ih =>
    intro s hs
    simp only [splitOnAmp] at hs
    by_cases hc : c = '&'
    · rw [if_pos hc] at hs
      rcases List.mem_cons.mp hs with h1 | h1
      · simp [h1]
      · exact ih s h1
    · rw [if_neg hc] at hs
      cases hsp : splitOnAmp t with
      | nil => exact absurd hsp (splitOnAmp_ne_nil t)
      | cons h0 t0 =>
        rw [hsp] at hs
        rcases List.mem_cons.mp hs with h1 | h1
        · subst h1
          intro hm
          rcases List.mem_cons.mp hm with h2 | h2
          · exact hc h2.symm
          · exact ih h0 (by rw [hsp]; simp) h2
        · exact ih s (by rw [hsp]; simp [h1])

lemma splitOnAmp_single (s : List Char) (h : '&' ∉ s) : splitOnAmp s = [s] := by
  induction s with
  | nil => rfl
  | cons c t ih =>
    have hc : c ≠ '&' := fun he => h (by simp [he])
    simp only [splitOnAmp]
    rw [if_neg hc, ih (fun hm => h (by simp [hm]))]

lemma splitOnAmp_append (s rest : List Char) (h : '&' ∉ s) :
    splitOnAmp (s ++ '&' :: rest) = s :: splitOnAmp rest := by
  induction s with
  | nil => simp [splitOnAmp]
  | cons c t ih =>
    have hc : c ≠ '&' := fun he => h (by simp [he])
    simp only [List.cons_append, splitOnAmp, List.append_eq]
    rw [if_neg hc, ih (fun hm => h (by simp [hm]))]

lemma pairOfSeg_mk (k v : List Char) (hk : '=' ∉ k) :
    pairOfSeg (k ++ '=' :: v) = (k, v) := by
  unfold pairOfSeg
  have hsplit := splitAt_pred (fun c => c != '=') k ('=' :: v)
    (by intro c hc; simp; exact fun he => hk (he ▸ hc))
    (by intro c hc; simp at hc; subst hc; simp)
  rw [hsplit.1, hsplit.2]

lemma queryPairsC_join (ps : List (List Char × List Char))
    (hwf : ∀ kv ∈ ps, '&' ∉ kv.1 ∧ '&' ∉ kv.2 ∧ '=' ∉ kv.1) :
    queryPairsC (joinPairsC ps) = ps := by
  induction ps with
  | nil => rfl
  | cons kv rest ih =>
    obtain ⟨hk, hv, he⟩ := hwf kv (by simp)
    have hseg : '&' ∉ kv.1 ++ '=' :: kv.2 := by
      intro hm
      rcases List.mem_append.mp hm with h1 | h1
      · exact hk h1
      · rcases List.mem_cons.mp h1 with h2 | h2
        · exact absurd h2.symm (by decide)
        · exact hv h2
    have hne : kv.1 ++ '=' :: kv.2 ≠ [] := by simp
    cases rest with
    | nil =>
      show queryPairsC (kv.1 ++ '=' :: kv.2) = [kv]
      unfold queryPairsC
      rw [splitOnAmp_single _ hseg]
      simp only [List.filter_cons, List.filter_nil]
      rw [if_pos (by simpa using hne)]
      simp [pairOfSeg_mk kv.1 kv.2 he]
    | cons kv2 rest2 =>
      show queryPairsC (kv.1 ++ '=' :: kv.2 ++ '&' :: joinPairsC (kv2 :: rest2)) = _
      have hassoc : kv.1 ++ '=' :: kv.2 ++ '&' :: joinPairsC (kv2 :: rest2) =
          (kv.1 ++ '=' :: kv.2) ++ '&' :: joinPairsC (kv2 :: rest2) := by
        simp [List.append_assoc]
      rw [hassoc]
      unfold queryPairsC
      rw [splitOnAmp_append _ _ hseg]
      simp only [List.filter_cons]
      rw [if_pos (by simpa using hne)]
      simp only [List.map_cons]
      rw [pairOfSeg_mk kv.1 kv.2 he]
      have ih2 := ih (fun x hx => hwf x (by simp [hx]))
      unfold queryPairsC at ih2
      rw [ih2]

lemma queryPairsC_wf (l : List Char) :
    ∀ kv ∈ queryPairsC l, '&' ∉ kv.1 ∧ '&' ∉ kv.2 ∧ '=' ∉ kv.1 := by
  intro kv hkv
  unfold queryPairsC at hkv
  rw [List.mem_map] at hkv
  obtain ⟨seg, hseg, hkveq⟩ := hkv
  have hsegmem : seg ∈ splitOnAmp l := List.mem_of_mem_filter hseg
  have hamp : '&' ∉ seg := splitOnAmp_no_amp l seg hsegmem
  subst hkveq
  refine ⟨?_, ?_, ?_⟩
  · intro hm
    exact hamp (List.takeWhile_subset _ hm)
  · intro hm
    unfold pairOfSeg at hm
    simp only at hm
    revert hm
    cases hd : seg.dropWhile (fun c => c != '=') with
    | nil => simp
    | cons c t =>
      intro hm
      have : '&' ∈ seg.dropWhile (fun c => c != '=') := by rw [hd]; simp [hm]
      exact hamp (List.dropWhile_subset _ this)
  · intro hm
    have := List.mem_takeWhile_imp hm
    simp at this

lemma urlToString_data (u : RUrl) (hf : u.fragment = none) :
    (urlToString u).data =
      u.scheme.data ++ "://".data ++ (u.host.data ++ (u.path.data ++
        (match u.query with
         | some q => '?' :: q.data
         | none => []))) := by
  unfold urlToString
  rw [hf]
  cases hq : u.query <;> simp [String.data_append, List.append_assoc]

lemma takeWhile_all_of (p : Char → Bool) (l : List Char) (h : ∀ c ∈ l, p c = true) :
    l.takeWhile p = l ∧ l.dropWhile p = [] := by
  have hs := splitAt_pred p l [] h (by intro c hc; simp at hc)
  rw [List.append_nil] at hs
  exact hs

lemma parseUrlCore_roundtrip (u : RUrl) (hw : WfUrl u) (hf : u.fragment = none) :
    parseUrlCore (u.host.data ++ (u.path.data ++
      (match u.query with
       | some q => '?' :: q.data
       | none => []))) u.scheme = some u := by
  obtain ⟨hs, hh1, hh2, hp1, hp2, hp3, hq⟩ := hw
  have hauth := splitAt_pred (fun c => !isUrlDelim c) u.host.data
    (u.path.data ++ (match u.query with
      | some q => '?' :: q.data
      | none => []))
    (by intro c hc; simp [hh2 c hc])
    (by
      intro c hc
      rw [head?_append_left _ _ hp1, hp2] at hc
      have : c = '/' := by simpa using hc.symm
      subst this
      simp [isUrlDelim])
  have hpath := splitAt_pred (fun c => !isQDelim c) u.path.data
    (match u.query with
     | some q => '?' :: q.data
     | none => [])
    (by intro c hc; simp [hp3 c hc])
    (by
      intro c hc
      cases hqe : u.query with
      | none => rw [hqe] at hc; simp at hc
      | some q =>
        rw [hqe] at hc
        have : c = '?' := by simpa using hc.symm
        subst this
        simp [isQDelim])
  unfold parseUrlCore
  rw [hauth.1, hauth.2]
  rw [if_neg hh1]
  rw [hpath.1, hpath.2]
  cases hqe : u.query with
  | none =>
    simp only [hqe]
    rw [if_neg hp1]
    obtain ⟨sc, ho, pa, qu, fr⟩ := u
    simp only at hqe hf ⊢
    rw [hqe, hf]
    rfl
  | some q =>
    simp only [hqe]
    have hqws := takeWhile_all_of (fun c => c != '#') q.data
      (by
        intro c hc
        have hne : c ≠ '#' := fun he => hq q hqe (he ▸ hc)
        simpa using hne)
    rw [if_neg hp1]
    simp only [hqws.1, hqws.2]
    obtain ⟨sc, ho, pa, qu, fr⟩ := u
    simp only at hqe hf ⊢
    rw [hqe, hf]
    rfl

lemma startsWithL_http_not_https (rest : List Char) :
    startsWithL ("http://".data ++ rest) "https://".data = false := by
  simp [startsWithL, List.cons_append]

lemma parse_toString (u : RUrl) (hw : WfUrl u) (hf : u.fragment = none) :
    parseUrl (urlToString u) = some u := by
  have hdata := urlToString_data u hf
  rcases hw.1 with hs | hs
  · have hd2 : (urlToString u).data = "http://".data ++ (u.host.data ++ (u.path.data ++
        (match u.query with
         | some q => '?' :: q.data
         | none => []))) := by
      rw [hdata, hs]
      rfl
    unfold parseUrl
    rw [hd2, startsWithL_http_not_https]
    simp only [Bool.false_eq_true, if_false]
    rw [if_pos (startsWithL_append_left _ _)]
    have hdrop : ("http://".data ++ (u.host.data ++ (u.path.data ++
        (match u.query with
         | some q => '?' :: q.data
         | none => [])))).drop 7 =
        u.host.data ++ (u.path.data ++
        (match u.query with
         | some q => '?' :: q.data
         | none => [])) := by
      have h7 : ("http://".data).length = 7 := rfl
      rw [← h7, List.drop_left]
    rw [hdrop, ← hs]
    exact parseUrlCore_roundtrip u hw hf
  · have hd2 : (urlToString u).data = "https://".data ++ (u.host.data ++ (u.path.data ++
        (match u.query with
         | some q => '?' :: q.data
         | none => []))) := by
      rw [hdata, hs]
      rfl
    unfold parseUrl
    rw [hd2]
    rw [if_pos (startsWithL_append_left _ _)]
    have hdrop : ("https://".data ++ (u.host.data ++ (u.path.data ++
        (match u.query with
         | some q => '?' :: q.data
         | none => [])))).drop 8 =
        u.host.data ++ (u.path.data ++
        (match u.query with
         | some q => '?' :: q.data
         | none => [])) := by
      have h8 : ("https://".data).length = 8 := rfl
      rw [← h8, List.drop_left]
    rw [hdrop, ← hs]
    exact parseUrlCore_roundtrip u hw hf

lemma head?_dropWhile_not (p : Char → Bool) (l : List Char) (c : Char)
    (h : (l.dropWhile p).head? = some c) : p c = false := by
  induction l with
  | nil => simp at h
  | cons d t ih =>
    rw [List.dropWhile_cons] at h
    split at h
    · exact ih h
    · next hd =>
      have hdc : d = c := by simpa using h
      subst hdc
      exact Bool.not_eq_true _ ▸ (by simpa using hd)

lemma parseUrlCore_wf (cs : List Char) (scheme : String)
    (hs : scheme = "http" ∨ scheme = "https") (u : RUrl)
    (h : parseUrlCore cs scheme = some u) : WfUrl u := by
  simp only [parseUrlCore] at h
  by_cases hauth : cs.takeWhile (fun c => !isUrlDelim c) = []
  · rw [if_pos hauth] at h; simp at h
  · rw [if_neg hauth] at h
    have hu := Option.some.inj h
    subst hu
    refine ⟨hs, ?_, ?_, ?_, ?_, ?_, ?_⟩
    · exact hauth
    · intro c hc
      have := List.mem_takeWhile_imp hc
      simpa using this
    · by_cases hpc : (cs.dropWhile (fun c => !isUrlDelim c)).takeWhile
          (fun c => !isQDelim c) = []
      · simp [hpc]
      · simp only [if_neg hpc]
        exact hpc
    · by_cases hpc : (cs.dropWhile (fun c => !isUrlDelim c)).takeWhile
          (fun c => !isQDelim c) = []
      · simp [hpc]
      · simp only [if_neg hpc]
        cases hr : cs.dropWhile (fun c => !isUrlDelim c) with
        | nil => rw [hr] at hpc; simp at hpc
        | cons r t =>
          have hdel : isUrlDelim r = true := by
            have := head?_dropWhile_not (fun c => !isUrlDelim c) cs r (by rw [hr]; rfl)
            simpa using this
          rw [hr] at hpc
          rw [List.takeWhile_cons] at hpc ⊢
          by_cases hq : (!isQDelim r) = true
          · rw [if_pos hq]
            have hslash : r = '/' := by
              simp only [isUrlDelim] at hdel
              simp only [isQDelim, Bool.not_eq_true', Bool.or_eq_false_iff] at hq
              rcases (by simpa using hdel : (r = '/' ∨ r = '?') ∨ r = '#') with ⟨h1 | h1⟩ | h1
              · exact h1
              · exact absurd (by simp [h1] : (r == '?') = true) (by simp [hq.1])
              · exact absurd (by simp [h1] : (r == '#') = true) (by simp [hq.2])
            rw [hslash]
            rfl
          · rw [if_neg hq] at hpc
            exact absurd rfl hpc
    · by_cases hpc : (cs.dropWhile (fun c => !isUrlDelim c)).takeWhile
          (fun c => !isQDelim c) = []
      · simp only [if_pos hpc]
        intro c hc
        have : c = '/' := by simpa using hc
        subst this
        rfl
      · simp only [if_neg hpc]
        intro c hc
        have := List.mem_takeWhile_imp hc
        simpa using this
    · intro q hq
      revert hq
      cases hr2 : (cs.dropWhile (fun c => !isUrlDelim c)).dropWhile (fun c => !isQDelim c) with
      | nil => simp
      | cons c r =>
        dsimp only
        by_cases hc : c = '?'
        · rw [if_pos hc]
          intro hq
          have hq2 : q = String.mk (r.takeWhile (fun c => c != '#')) := by
            simpa using hq.symm
          rw [hq2]
          intro hm
          have := List.mem_takeWhile_imp hm
          simp at this
        · rw [if_neg hc]
          by_cases hc2 : c = '#'
          · rw [if_pos hc2]; simp
          · rw [if_neg hc2]; simp

lemma parseUrl_wf (s : String) (u : RUrl) (h : parseUrl s = some u) : WfUrl u := by
  unfold parseUrl at h
  split at h
  · exact parseUrlCore_wf _ _ (Or.inr rfl) u h
  · split at h
    · exact parseUrlCore_wf _ _ (Or.inl rfl) u h
    · simp at h

lemma mem_of_head?_eq (l : List Char) (c : Char) (h : l.head? = some c) : c ∈ l := by
  cases l with
  | nil => simp at h
  | cons d t =>
    have : d = c := by simpa using h
    simp [← this]

lemma dropWhile_ne_nil_of_mem (p : Char → Bool) (l : List Char) (c : Char)
    (hc : c ∈ l) (hp : p c = false) : l.dropWhile p ≠ [] := by
  induction l with
  | nil => simp at hc
  | cons d t ih =>
    rw [List.dropWhile_cons]
    split
    · next hd =>
      rcases List.mem_cons.mp hc with h1 | h1
      · subst h1; rw [hp] at hd; simp at hd
      · exact ih h1
    · simp

lemma dirPath_spec (p : String) (hm : '/' ∈ p.data) :
    ∃ t, (dirPath p).data ++ t = p.data ∧ (dirPath p).data ≠ [] := by
  obtain ⟨t, ht⟩ := List.dropWhile_suffix (l := p.data.reverse) (fun c => c != '/')
  refine ⟨t.reverse, ?_, ?_⟩
  · show (p.data.reverse.dropWhile (fun c => c != '/')).reverse ++ t.reverse = p.data
    have h2 := congrArg List.reverse ht
    simpa [List.reverse_append] using h2
  · show (p.data.reverse.dropWhile (fun c => c != '/')).reverse ≠ []
    simp only [ne_eq, List.reverse_eq_nil_iff]
    exact dropWhile_ne_nil_of_mem _ _ '/' (List.mem_reverse.mpr hm) (by simp)

lemma beforeQ_noQDelim (cs : List Char) :
    ∀ c ∈ (cs.takeWhile (fun c => c != '#')).takeWhile (fun c => c != '?'),
      isQDelim c = false := by
  intro c hc
  have h1 := List.mem_takeWhile_imp hc
  have h2 := List.mem_takeWhile_imp (List.takeWhile_subset _ hc)
  simp only [bne_iff_ne, ne_eq] at h1 h2
  simp [isQDelim, h1, h2]

lemma mem_tail_dropWhile_noHash (cs : List Char) (d : Char) (qc : List Char)
    (h : (cs.takeWhile (fun c => c != '#')).dropWhile (fun c => c != '?') = d :: qc) :
    '#' ∉ qc := by
  intro hm
  have h1 : '#' ∈ (cs.takeWhile (fun c => c != '#')).dropWhile (fun c => c != '?') := by
    rw [h]; simp [hm]
  have h2 : '#' ∈ cs.takeWhile (fun c => c != '#') := List.dropWhile_subset _ h1
  have := List.mem_takeWhile_imp h2
  simp at this

lemma joinUrl_wf (base : RUrl) (href : String) (u : RUrl) (hb : WfUrl base)
    (h : joinUrl base href = some u) : WfUrl u := by
  obtain ⟨hbs, hbh1, hbh2, hbp1, hbp2, hbp3, hbq⟩ := hb
  unfold joinUrl at h
  cases hp : parseUrl href with
  | some v =>
    rw [hp] at h
    dsimp only at h
    have : v = u := Option.some.inj h
    subst this
    exact parseUrl_wf href v hp
  | none =>
    rw [hp] at h
    dsimp only at h
    by_cases hpp : startsWithL href.data ['/', '/'] = true
    · rw [if_pos hpp] at h
      exact parseUrl_wf _ u h
    · rw [if_neg hpp] at h
      by_cases hbq0 : (href.data.takeWhile (fun c => c != '#')).takeWhile
          (fun c => c != '?') = []
      · rw [if_pos hbq0] at h
        cases hQ : (href.data.takeWhile (fun c => c != '#')).dropWhile
            (fun c => c != '?') with
        | nil =>
          rw [hQ] at h
          dsimp only at h
          have hu := Option.some.inj h
          subst hu
          exact ⟨hbs, hbh1, hbh2, hbp1, hbp2, hbp3, hbq⟩
        | cons d qc =>
          rw [hQ] at h
          dsimp only at h
          have hu := Option.some.inj h
          subst hu
          refine ⟨hbs, hbh1, hbh2, hbp1, hbp2, hbp3, ?_⟩
          intro qs hqs
          have : String.mk qc = qs := Option.some.inj hqs
          subst this
          exact mem_tail_dropWhile_noHash href.data d qc hQ
      · rw [if_neg hbq0] at h
        by_cases habs : startsWithL ((href.data.takeWhile (fun c => c != '#')).takeWhile
            (fun c => c != '?')) ['/'] = true
        · rw [if_pos habs] at h
          have hu := Option.some.inj h
          subst hu
          refine ⟨hbs, hbh1, hbh2, hbq0, startsWithL_head _ _ '/' rfl habs,
            beforeQ_noQDelim href.data, ?_⟩
          intro qs hqs
          revert hqs
          cases hQ : (href.data.takeWhile (fun c => c != '#')).dropWhile
              (fun c => c != '?') with
          | nil => intro hqs; simp at hqs
          | cons d qc =>
            intro hqs
            have : String.mk qc = qs := Option.some.inj hqs
            subst this
            exact mem_tail_dropWhile_noHash href.data d qc hQ
        · rw [if_neg habs] at h
          have hu := Option.some.inj h
          subst hu
          obtain ⟨t, ht, hdp⟩ := dirPath_spec base.path (mem_of_head?_eq _ _ hbp2)
          have hdata : (dirPath base.path ++ String.mk ((href.data.takeWhile
              (fun c => c != '#')).takeWhile (fun c => c != '?'))).data =
              (dirPath base.path).data ++ (href.data.takeWhile
              (fun c => c != '#')).takeWhile (fun c => c != '?') := by
            rw [String.data_append]
          refine ⟨hbs, hbh1, hbh2, ?_, ?_, ?_, ?_⟩
          · rw [hdata]
            simp [hdp]
          · rw [hdata]
            rw [head?_append_left _ _ hdp]
            rw [← head?_append_left _ t hdp, ht]
            exact hbp2
          · intro c hc
            rw [hdata] at hc
            rcases List.mem_append.mp hc with h1 | h1
            · exact hbp3 c (by rw [← ht]; exact List.mem_append_left _ h1)
            · exact beforeQ_noQDelim href.data c h1
          · intro qs hqs
            revert hqs
            cases hQ : (href.data.takeWhile (fun c => c != '#')).dropWhile
                (fun c => c != '?') with
            | nil => intro hqs; simp at hqs
            | cons d qc =>
              intro hqs
              have : String.mk qc = qs := Option.some.inj hqs
              subst this
              exact mem_tail_dropWhile_noHash href.data d qc hQ

lemma filterFinal_proj (full : RUrl) :
    (filterFinal full).scheme = full.scheme ∧ (filterFinal full).host = full.host ∧
    (filterFinal full).path = full.path ∧ (filterFinal full).fragment = none := by
  by_cases hps : (queryPairsOf full.query).filter keepsParam = [] <;>
    simp [filterFinal, hps]

lemma filterFinal_query (full : RUrl) :
    (filterFinal full).query =
      (if (queryPairsOf full.query).filter keepsParam = [] then none
       else some (String.mk (joinPairsC ((queryPairsOf full.query).filter keepsParam)))) := by
  by_cases hps : (queryPairsOf full.query).filter keepsParam = [] <;>
    simp [filterFinal, hps]

lemma filterFinal_pairs (full : RUrl) :
    queryPairsOf (filterFinal full).query = (queryPairsOf full.query).filter keepsParam := by
  rw [filterFinal_query]
  by_cases hps : (queryPairsOf full.query).filter keepsParam = []
  · rw [if_pos hps, hps]; rfl
  · rw [if_neg hps]
    show queryPairsC (joinPairsC _) = _
    apply queryPairsC_join
    intro kv hkv
    have hmem := List.mem_of_mem_filter hkv
    cases hq : full.query with
    | none => rw [hq] at hmem; simp [queryPairsOf] at hmem
    | some q0 =>
      rw [hq] at hmem
      exact queryPairsC_wf q0.data kv hmem

lemma mem_joinPairsC (ps : List (List Char × List Char)) :
    ∀ c ∈ joinPairsC ps, (∃ kv ∈ ps, c ∈ kv.1 ∨ c ∈ kv.2) ∨ c = '=' ∨ c = '&' := by
  induction ps with
  | nil => intro c hc; simp [joinPairsC] at hc
  | cons kv rest ih =>
    intro c hc
    cases rest with
    | nil =>
      simp only [joinPairsC] at hc
      rcases List.mem_append.mp hc with h1 | h1
      · exact Or.inl ⟨kv, by simp, Or.inl h1⟩
      · rcases List.mem_cons.mp h1 with h2 | h2
        · exact Or.inr (Or.inl h2)
        · exact Or.inl ⟨kv, by simp, Or.inr h2⟩
    | cons kv2 rest2 =>
      simp only [joinPairsC, List.mem_append, List.mem_cons] at hc
      rcases hc with (h1 | h1 | h1) | h1 | h1
      · exact Or.inl ⟨kv, by simp, Or.inl h1⟩
      · exact Or.inr (Or.inl h1)
      · exact Or.inl ⟨kv, by simp, Or.inr h1⟩
      · exact Or.inr (Or.inr h1)
      · rcases ih c h1 with ⟨kv3, hkv3, hin⟩ | h5
        · exact Or.inl ⟨kv3, by simp [hkv3], hin⟩
        · exact Or.inr h5

lemma splitOnAmp_subset (l : List Char) : ∀ s ∈ splitOnAmp l, ∀ c ∈ s, c ∈ l := by
  induction l with
  | nil =>
    intro s hs c hc
    simp [splitOnAmp] at hs
    subst hs
    simp at hc
  | cons d t ih =>
    intro s hs c hc
    simp only [splitOnAmp] at hs
    by_cases hd : d = '&'
    · rw [if_pos hd] at hs
      rcases List.mem_cons.mp hs with h1 | h1
      · subst h1; simp at hc
      · exact List.mem_cons_of_mem d (ih s h1 c hc)
    · rw [if_neg hd] at hs
      cases hsp : splitOnAmp t with
      | nil => exact absurd hsp (splitOnAmp_ne_nil t)
      | cons h0 t0 =>
        rw [hsp] at hs
        rcases List.mem_cons.mp hs with h1 | h1
        · subst h1
          rcases List.mem_cons.mp hc with h2 | h2
          · simp [h2]
          · exact List.mem_cons_of_mem d (ih h0 (by rw [hsp]; simp) c h2)
        · exact List.mem_cons_of_mem d (ih s (by rw [hsp]; simp [h1]) c hc)

lemma queryPairsC_chars (l : List Char) (kv : List Char × List Char)
    (h : kv ∈ queryPairsC l) (c : Char) (hc : c ∈ kv.1 ∨ c ∈ kv.2) : c ∈ l := by
  unfold queryPairsC at h
  rw [List.mem_map] at h
  obtain ⟨seg, hseg, hkveq⟩ := h
  have hsegmem : seg ∈ splitOnAmp l := List.mem_of_mem_filter hseg
  have hsub : ∀ x ∈ seg, x ∈ l := splitOnAmp_subset l seg hsegmem
  subst hkveq
  rcases hc with h1 | h1
  · exact hsub c (List.takeWhile_subset _ h1)
  · unfold pairOfSeg at h1
    simp only at h1
    revert h1
    cases hd : seg.dropWhile (fun c => c != '=') with
    | nil => intro h1; simp at h1
    | cons d t =>
      intro h1
      have hmem2 : c ∈ seg.dropWhile (fun c => c != '=') := by rw [hd]; simp [h1]
      exact hsub c (List.dropWhile_subset _ hmem2)

lemma filterFinal_wf (full : RUrl) (hw : WfUrl full) : WfUrl (filterFinal full) := by
  obtain ⟨hs, hh1, hh2, hp1, hp2, hp3, hq⟩ := hw
  obtain ⟨hfs, hfh, hfp, _⟩ := filterFinal_proj full
  refine ⟨?_, ?_, ?_, ?_, ?_, ?_, ?_⟩
  · rw [hfs]; exact hs
  · rw [hfh]; exact hh1
  · rw [hfh]; exact hh2
  · rw [hfp]; exact hp1
  · rw [hfp]; exact hp2
  · rw [hfp]; exact hp3
  · intro qs hqs
    rw [filterFinal_query full] at hqs
    by_cases hps : (queryPairsOf full.query).filter keepsParam = []
    · rw [if_pos hps] at hqs; simp at hqs
    · rw [if_neg hps] at hqs
      have hqe : String.mk (joinPairsC ((queryPairsOf full.query).filter keepsParam)) = qs :=
        Option.some.inj hqs
      subst hqe
      intro hm
      have hm2 : '#' ∈ joinPairsC ((queryPairsOf full.query).filter keepsParam) := hm
      rcases mem_joinPairsC _ '#' hm2 with ⟨kv, hkv, hin⟩ | h1 | h1
      · have hmem := List.mem_of_mem_filter hkv
        cases hqf : full.query with
        | none => rw [hqf] at hmem; simp [queryPairsOf] at hmem
        | some q0 =>
          rw [hqf] at hmem
          have := queryPairsC_chars q0.data kv hmem '#' hin
          exact hq q0 hqf this
      · exact absurd h1 (by decide)
      · exact absurd h1 (by decide)

lemma RUrl_eq_of (u v : RUrl) (h1 : u.scheme = v.scheme) (h2 : u.host = v.host)
    (h3 : u.path = v.path) (h4 : u.query = v.query) (h5 : u.fragment = v.fragment) :
    u = v := by
  cases u
  cases v
  simp only at h1 h2 h3 h4 h5
  subst h1; subst h2; subst h3; subst h4; subst h5
  rfl

lemma filter_keeps_idem (l : List (List Char × List Char)) :
    (l.filter keepsParam).filter keepsParam = l.filter keepsParam :=
  List.filter_eq_self.mpr (fun kv hkv => List.of_mem_filter hkv)

lemma filterFinal_idem (full : RUrl) : filterFinal (filterFinal full) = filterFinal full := by
  have hproj := filterFinal_proj full
  have hproj2 := filterFinal_proj (filterFinal full)
  refine RUrl_eq_of _ _ ?_ ?_ ?_ ?_ ?_
  · rw [hproj2.1]
  · rw [hproj2.2.1]
  · rw [hproj2.2.2.1]
  · rw [filterFinal_query (filterFinal full), filterFinal_pairs full, filter_keeps_idem,
      ← filterFinal_query full]
  · rw [hproj2.2.2.2, hproj.2.2.2]

lemma filter_url_some (domain b hre out : String)
    (hu : filter_url domain b hre = some out) :
    ∃ base full, parseUrl b = some base ∧ joinUrl base hre = some full ∧
      full.host = domain ∧ out = urlToString (filterFinal full) := by
  unfold filter_url at hu
  dsimp only at hu
  split at hu
  · exact absurd hu (by simp)
  split at hu
  · exact absurd hu (by simp)
  split at hu
  · exact absurd hu (by simp)
  cases hpb : parseUrl b with
  | none => rw [hpb] at hu; dsimp only at hu; exact absurd hu (by simp)
  | some base =>
    rw [hpb] at hu
    dsimp only at hu
    cases hj : joinUrl base hre with
    | none => rw [hj] at hu; dsimp only at hu; exact absurd hu (by simp)
    | some full =>
      rw [hj] at hu
      dsimp only at hu
      split at hu
      · next hhost =>
        exact ⟨base, full, rfl, hj, hhost, (Option.some.inj hu).symm⟩
      · exact absurd hu (by simp)

lemma asciiLower_h : asciiLower 'h' = 'h' := by decide

lemma lowerStr_head_h (u : String) (h : u.data.head? = some 'h') :
    (lowerStr u).data.head? = some 'h' := by
  unfold lowerStr
  cases hude : u.data with
  | nil => rw [hude] at h; simp at h
  | cons c t =>
    rw [hude] at h
    have hc : c = 'h' := by simpa using h
    subst hc
    show (List.map asciiLower ('h' :: t)).head? = some 'h'
    simp [asciiLower_h]

lemma bannedStarts_head_h (l : List Char) (hh : l.head? = some 'h') :
    bannedStarts.any (fun bs => startsWithL l bs.data) = false := by
  cases l with
  | nil => simp at hh
  | cons c t =>
    have hc : c = 'h' := by simpa using hh
    subst hc
    show bannedStarts.any (fun bs => startsWithL ('h' :: t) bs.data) = false
    simp [bannedStarts, startsWithL]

lemma urlToString_head_h (v : RUrl) (hs : v.scheme = "http" ∨ v.scheme = "https")
    (hf : v.fragment = none) : (urlToString v).data.head? = some 'h' := by
  rw [urlToString_data v hf]
  rcases hs with hs | hs <;> rw [hs] <;> rfl

/-- C7: every accepted href canonicalizes to a URL whose fragment is stripped,
whose tracking query parameters (`utm_`-keys, `fbclid`, `gclid`) are dropped,
and whose remaining query pairs are exactly the kept pairs in their original
order; in particular `https://d.org/a?utm_source=x&id=1` canonicalizes to
`https://d.org/a?id=1` for domain `d.org`. -/
theorem claim_C7 :
    (∀ (domain b hre out : String), filter_url domain b hre = some out →
      ∃ base full v, parseUrl b = some base ∧ joinUrl base hre = some full ∧
        full.host = domain ∧ parseUrl out = some v ∧ v.fragment = none ∧
        v.scheme = full.scheme ∧ v.host = full.host ∧ v.path = full.path ∧
        queryPairsOf v.query = (queryPairsOf full.query).filter keepsParam) ∧
    filter_url "d.org" "https://d.org/" "https://d.org/a?utm_source=x&id=1" =
      some "https://d.org/a?id=1" := by
  constructor
  · intro domain b hre out hout
    obtain ⟨base, full, hpb, hj, hhost, houteq⟩ := filter_url_some domain b hre out hout
    have hwb : WfUrl base := parseUrl_wf b base hpb
    have hwf : WfUrl full := joinUrl_wf base hre full hwb hj
    have hwff := filterFinal_wf full hwf
    have hproj := filterFinal_proj full
    refine ⟨base, full, filterFinal full, hpb, hj, hhost, ?_, hproj.2.2.2, hproj.1,
      hproj.2.1, hproj.2.2.1, filterFinal_pairs full⟩
    rw [houteq]
    exact parse_toString _ hwff hproj.2.2.2
  · decide

theorem claim_C7_witness :
    ∃ base full v, parseUrl "https://d.org/" = some base ∧
      joinUrl base "https://d.org/a?utm_source=x&id=1" = some full ∧
      full.host = "d.org" ∧ parseUrl "https://d.org/a?id=1" = some v ∧
      v.fragment = none ∧ v.scheme = full.scheme ∧ v.host = full.host ∧
      v.path = full.path ∧
      queryPairsOf v.query = (queryPairsOf full.query).filter keepsParam :=
  claim_C7.1 "d.org" "https://d.org/" "https://d.org/a?utm_source=x&id=1"
    "https://d.org/a?id=1" (by decide)

/-- C8 counterexample: canonicalizer output is not always re-accepted.  The
banned-extension test is applied to the raw href, so `a.pdf#x` (which does not
end in `.pdf`) is accepted and canonicalizes to `https://d.org/a.pdf`, but
running the canonicalizer on that output rejects it. -/
theorem claim_C8_counterexample :
    filter_url "d.org" "https://d.org/" "a.pdf#x" = some "https://d.org/a.pdf" ∧
    filter_url "d.org" "https://d.org/" "https://d.org/a.pdf" = none := by
  constructor <;> decide

/-- C8 (amended): canonicalization is idempotent for outputs that do not hit
the banned-extension test: if `filter_url domain b hre = some u` and the
lowercased `u` neither ends in a banned extension nor contains one followed by
`'?'`, then `filter_url domain b u = some u`. -/
theorem claim_C8_amended : ∀ (domain b hre u : String),
    filter_url domain b hre = some u →
    hitsBannedExt (lowerStr u) = false →
    filter_url domain b u = some u := by
  intro domain b hre u hu hnb
  obtain ⟨base, full, hpb, hj, hhost, hueq⟩ := filter_url_some domain b hre u hu
  have hwb : WfUrl base := parseUrl_wf b base hpb
  have hwf : WfUrl full := joinUrl_wf base hre full hwb hj
  have hwff : WfUrl (filterFinal full) := filterFinal_wf full hwf
  have hproj := filterFinal_proj full
  have hpu : parseUrl u = some (filterFinal full) := by
    rw [hueq]
    exact parse_toString _ hwff hproj.2.2.2
  have hud : u.data.head? = some 'h' := by
    rw [hueq]
    exact urlToString_head_h _ hwff.1 hproj.2.2.2
  have hlow : (lowerStr u).data.head? = some 'h' := lowerStr_head_h u hud
  have hbs : bannedStarts.any (fun bs => startsWithL (lowerStr u).data bs.data) = false :=
    bannedStarts_head_h _ hlow
  have hck : ¬(u = "/cookies" ∨ u = "/cookie-policy") := by
    rintro (he | he) <;> (rw [he] at hud; revert hud; decide)
  have hjoin : joinUrl base u = some (filterFinal full) := by
    unfold joinUrl
    rw [hpu]
  unfold filter_url
  dsimp only
  rw [hnb, hbs]
  simp only [Bool.false_eq_true, if_false]
  rw [if_neg hck]
  rw [hpb]
  dsimp only
  rw [hjoin]
  dsimp only
  rw [if_pos (by rw [hproj.2.1]; exact hhost)]
  rw [filterFinal_idem, ← hueq]

theorem claim_C8_witness :
    filter_url "d.org" "https://d.org/" "https://d.org/a?id=1" =
      some "https://d.org/a?id=1" :=
  claim_C8_amended "d.org" "https://d.org/" "https://d.org/a?utm_source=x&id=1"
    "https://d.org/a?id=1" (by decide) (by decide)
